import Mathlib

/-!
Verification of the anchorhash consistent-hashing engine.

The definitions below are a shallow embedding of the Rust sources:
machine integers (u16, u32, u64) are modelled as Nat with explicit
truncation where overflow can occur, Vec indexing that can panic is
modelled with Option-returning reads (a panic becomes an error value),
and the two unbounded loops of Anchor::get_bucket are modelled with
explicit fuel, with fuel exhaustion distinguished from a panic.
-/

namespace Anchorhash

/-! Basic list access lemmas used throughout. -/

theorem get?_eq_getD {α : Type _} [Inhabited α] (l : List α) (i : Nat) (h : i < l.length) :
    l.get? i = some (l.getD i default) := by
  induction l generalizing i with
  | nil => simp at h
  | cons a t ih =>
    cases i with
    | zero => rfl
    | succ j =>
      simp only [List.length_cons, Nat.succ_lt_succ_iff] at h
      simpa [List.getD] using ih j h

theorem getD_set_self (l : List Nat) (i v : Nat) (h : i < l.length) :
    (l.set i v).getD i 0 = v := by
  induction l generalizing i with
  | nil => simp at h
  | cons a t ih =>
    cases i with
    | zero => rfl
    | succ j =>
      simp only [List.length_cons, Nat.succ_lt_succ_iff] at h
      simpa [List.set, List.getD] using ih j h

theorem getD_set_ne (l : List Nat) (i j v : Nat) (h : i ≠ j) :
    (l.set i v).getD j 0 = l.getD j 0 := by
  induction l generalizing i j with
  | nil => rfl
  | cons a t ih =>
    cases i with
    | zero =>
      cases j with
      | zero => exact absurd rfl h
      | succ j' => rfl
    | succ i' =>
      cases j with
      | zero => rfl
      | succ j' =>
        simpa [List.set, List.getD] using ih i' j' (by omega)

theorem set_getD_eq (l : List Nat) (i : Nat) (h : i < l.length) :
    l.set i (l.getD i 0) = l := by
  induction l generalizing i with
  | nil => rfl
  | cons a t ih =>
    cases i with
    | zero => rfl
    | succ j =>
      simp only [List.length_cons, Nat.succ_lt_succ_iff] at h
      simpa [List.set, List.getD] using ih j h

theorem get?_set_ne {α : Type _} (l : List α) (i j : Nat) (v : α) (h : i ≠ j) :
    (l.set i v).get? j = l.get? j := by
  induction l generalizing i j with
  | nil => rfl
  | cons a t ih =>
    cases i with
    | zero =>
      cases j with
      | zero => exact absurd rfl h
      | succ j' => rfl
    | succ i' =>
      cases j with
      | zero => rfl
      | succ j' => simpa [List.set] using ih i' j' (by omega)

theorem getD_range (n i : Nat) (h : i < n) : (List.range n).getD i 0 = i := by
  have h1 : (List.range n).get? i = some i := List.get?_range h
  have h2 : (List.range n).get? i = some ((List.range n).getD i 0) :=
    get?_eq_getD _ _ (by simpa using h)
  rw [h1] at h2
  exact (Option.some_injective _ h2.symm)

theorem getD_range' (s n i : Nat) (h : i < n) : (List.range' s n).getD i 0 = s + i := by
  induction n generalizing s i with
  | zero => omega
  | succ m ih =>
    cases i with
    | zero => rfl
    | succ j =>
      have : (List.range' s (m + 1)).getD (j + 1) 0 = (List.range' (s + 1) m).getD j 0 := rfl
      rw [this, ih (s + 1) j (by omega)]
      omega

theorem mem_of_getD {l : List Nat} {i : Nat} (h : i < l.length) : l.getD i 0 ∈ l := by
  induction l generalizing i with
  | nil => simp at h
  | cons a t ih =>
    cases i with
    | zero => simp [List.getD]
    | succ j =>
      simp only [List.length_cons, Nat.succ_lt_succ_iff] at h
      exact List.mem_cons_of_mem _ (by simpa [List.getD] using ih h)

theorem getD_of_mem {l : List Nat} {x : Nat} (h : x ∈ l) :
    ∃ i, i < l.length ∧ l.getD i 0 = x := by
  induction l with
  | nil => simp at h
  | cons a t ih =>
    rcases List.mem_cons.mp h with h1 | h2
    · exact ⟨0, by simp, h1.symm⟩
    · obtain ⟨i, hi, hx⟩ := ih h2
      exact ⟨i + 1, by simpa using Nat.succ_lt_succ hi, hx⟩

/-!
Component A: the range map (src/range_map.rs, default fastmod feature).

Rust: `((v as u64 * max as u64) >> 32) as u32`.  For `v < 2^32` the result
lies in `[0, max)` whenever `max > 0`; for `max = 0` the result is 0 (the
debug assertion is compiled out in release builds).
-/

def range_map (v max : Nat) : Nat := v * max / 2 ^ 32

theorem range_map_lt {v max : Nat} (hv : v < 2 ^ 32) (hm : 0 < max) :
    range_map v max < max := by
  have h : v * max < 2 ^ 32 * max := by
    exact Nat.mul_lt_mul_of_lt_of_le hv (Nat.le_refl _) hm
  exact Nat.div_lt_of_lt_mul (by omega)

/-!
Component B: the 32-bit mixer (src/fasthash.rs, FNV fallback).

Rust: FnvHasher seeded with the seed, fed the four little-endian bytes of
k, 64-bit FNV-1a state, output truncated to u32.  The claims never depend
on the mixer's values, only on the output being a u32.
-/

def fnvPrime : Nat := 0x100000001b3

def fnvStep (h b : Nat) : Nat := ((h ^^^ b) * fnvPrime) % 2 ^ 64

def fasthash (k seed : Nat) : Nat :=
  (fnvStep (fnvStep (fnvStep (fnvStep seed (k % 256))
      (k / 256 % 256)) (k / 2 ^ 16 % 256)) (k / 2 ^ 24 % 256)) % 2 ^ 32

theorem fasthash_lt (k seed : Nat) : fasthash k seed < 2 ^ 32 :=
  Nat.mod_lt _ (by norm_num)

/-!
Component C: the Anchor state machine (src/anchor.rs).
-/

/-- Bucket models the pub(crate) enum Bucket: the resolved id, tagged
with whether the inner loop of get_bucket ran at least once. -/
inductive Bucket : Type where
  | Original (v : Nat)
  | Remapped (v : Nat)
deriving Repr, DecidableEq

/-- Bucket.deref models the Deref impl: both variants expose the id. -/
def Bucket.deref : Bucket → Nat
  | .Original v => v
  | .Remapped v => v

/-- GetErr distinguishes the two ways the fuelled loops of get_bucket can
fail to produce a bucket: oob models a Rust index-out-of-bounds panic,
fuel means the fuel budget was exhausted (proved unreachable below for
every state satisfying the invariant). -/
inductive GetErr : Type where
  | oob
  | fuel
deriving Repr, DecidableEq

/-- Anchor models struct Anchor.  All u16 fields widen to Nat; the stack R
is kept in pop order: the head of the list is the top of the Vec-backed
stack (the most recently removed bucket). -/
structure Anchor : Type where
  capacity : Nat
  A : List Nat
  R : List Nat
  N : Nat
  W : List Nat
  K : List Nat
  L : List Nat
deriving Repr, DecidableEq

/-- Anchor.new models Anchor::new: A is all zeros then overwritten with
the sentinel A[b] = b for b in [working, capacity); R holds the unused
buckets with `working` on top; W, K, L are the identity.  The Rust assert
that working ≤ capacity is a caller obligation (carried as a hypothesis by
the reachability relation). -/
def Anchor.new (capacity working : Nat) : Anchor where
  capacity := capacity
  A := (List.range capacity).map fun b => if b < working then 0 else b
  R := List.range' working (capacity - working)
  N := working
  W := List.range capacity
  K := List.range capacity
  L := List.range capacity

/-- seekLoop models the inner loop of Anchor::get_bucket:
while A[h] >= A[b] { remapped = true; h = K[h] }, where ab is the value
A[b] of the current (removed) outer bucket.  Reads out of bounds become
GetErr.oob (a Rust panic). -/
def seekLoop (A K : List Nat) (ab : Nat) : Nat → Nat → Bool → Except GetErr (Nat × Bool)
  | 0, h, remapped =>
    match A.get? h with
    | none => .error .oob
    | some ah => if ab ≤ ah then .error .fuel else .ok (h, remapped)
  | fuel + 1, h, remapped =>
    match A.get? h with
    | none => .error .oob
    | some ah =>
      if ab ≤ ah then
        match K.get? h with
        | none => .error .oob
        | some kh => seekLoop A K ab fuel kh true
      else .ok (h, remapped)

/-- bucketLoop models the outer loop of Anchor::get_bucket:
while A[b] > 0 { h = range_map(fasthash(b, k), A[b]); inner loop; b = h }.
The inner loop is run with fuel A.length + 1, which the invariant proves
sufficient. -/
def bucketLoop (A K : List Nat) (k : Nat) : Nat → Nat → Bool → Except GetErr (Nat × Bool)
  | 0, b, remapped =>
    match A.get? b with
    | none => .error .oob
    | some ab => if 0 < ab then .error .fuel else .ok (b, remapped)
  | fuel + 1, b, remapped =>
    match A.get? b with
    | none => .error .oob
    | some ab =>
      if 0 < ab then
        match seekLoop A K ab (A.length + 1) (range_map (fasthash b k) ab) remapped with
        | .error e => .error e
        | .ok (h, remapped') => bucketLoop A K k fuel h remapped'
      else .ok (b, remapped)

/-- Anchor.get_bucket models Anchor::get_bucket: the initial slot is
range_map(k, capacity), and the final flag selects the Bucket variant. -/
def Anchor.get_bucket (S : Anchor) (k : Nat) : Except GetErr Bucket :=
  match bucketLoop S.A S.K k (S.A.length + 1) (range_map k S.capacity) false with
  | .error e => .error e
  | .ok (b, true) => .ok (.Remapped b)
  | .ok (b, false) => .ok (.Original b)

/-- Anchor.add_bucket models Anchor::add_bucket.  Returns none exactly
when R is empty (the Vec pop fails and the state is untouched); otherwise
pops the stack top b and performs, in source order: A[b] = 0;
L[W[N]] = N; W[L[b]] = b (reading the updated L); K[b] = b; N += 1.
The getD reads are in bounds for every state satisfying the invariant
(R nonempty forces N < capacity). -/
def Anchor.add_bucket (S : Anchor) : Option (Nat × Anchor) :=
  match S.R with
  | [] => none
  | b :: R' =>
    let A' := S.A.set b 0
    let L' := S.L.set (S.W.getD S.N 0) S.N
    let W' := S.W.set (L'.getD b 0) b
    let K' := S.K.set b b
    some (b, { S with A := A', R := R', N := S.N + 1, W := W', K := K', L := L' })

/-- Anchor.removeState is the state update of Anchor::remove_bucket, in
source order: R.push(b); N -= 1; A[b] = N; W[L[b]] = W[N]; K[b] = W[N]
(reading the updated W); L[W[N]] = L[b]. -/
def Anchor.removeState (S : Anchor) (b : Nat) : Anchor :=
  let n' := S.N - 1
  let A' := S.A.set b n'
  let W' := S.W.set (S.L.getD b 0) (S.W.getD n' 0)
  let d := W'.getD n' 0
  let K' := S.K.set b d
  let L' := S.L.set d (S.L.getD b 0)
  { S with A := A', R := b :: S.R, N := n', W := W', K := K', L := L' }

/-- Anchor.remove_bucket models Anchor::remove_bucket.  none models a
panic: the index b out of bounds, the assert_eq that A[b] = 0, or the u16
underflow of N -= 1 when N = 0 (debug panic; in release the subsequent
W index 65535 write panics, as capacity ≤ 65535). -/
def Anchor.remove_bucket (S : Anchor) (b : Nat) : Option Anchor :=
  match S.A.get? b with
  | none => none
  | some ab =>
    if ab = 0 then
      if S.N = 0 then none else some (S.removeState b)
    else none

/-- Reachable S means S arises from some Anchor::new by a sequence of
successful add_bucket / remove_bucket calls (a failing add_bucket leaves
the state unchanged so contributes nothing; a failing remove_bucket is a
panic). -/
inductive Reachable : Anchor → Prop where
  | new : ∀ capacity working, working ≤ capacity → Reachable (Anchor.new capacity working)
  | add : ∀ S b S', Reachable S → S.add_bucket = some (b, S') → Reachable S'
  | remove : ∀ S b S', Reachable S → S.remove_bucket b = some S' → Reachable S'

/-- PRR (pure-removal reachable) is the normal form of reachability:
some initial state followed only by removals.  Every reachable state is
PRR because a successful add_bucket exactly undoes the most recent
removal (proved below). -/
inductive PRR : Anchor → Prop where
  | new : ∀ capacity working, working ≤ capacity → PRR (Anchor.new capacity working)
  | remove : ∀ S b S', PRR S → S.remove_bucket b = some S' → PRR S'

/-- Inv collects the state invariants of the Anchor.  R is indexed from
the top of the stack, so the entry at depth i was the (i+1)-th most
recent removal and its anchor value is N + i.  The last two fields are
stated for the stack top only; they are re-established by every removal
and are all that add_bucket needs to undo the most recent removal. -/
structure Inv (S : Anchor) : Prop where
  lenA : S.A.length = S.capacity
  lenW : S.W.length = S.capacity
  lenK : S.K.length = S.capacity
  lenL : S.L.length = S.capacity
  hNR : S.N + S.R.length = S.capacity
  hRlt : ∀ i, i < S.R.length → S.R.getD i 0 < S.capacity
  hAR : ∀ i, i < S.R.length → S.A.getD (S.R.getD i 0) 0 = S.N + i
  hAW : ∀ b, b < S.capacity → b ∉ S.R → S.A.getD b 0 = 0
  hScr : ∀ i, i < S.R.length → S.W.getD (S.N + i) 0 = S.K.getD (S.R.getD i 0) 0
  hLR : ∀ i, i < S.R.length → S.L.getD (S.R.getD i 0) 0 ≤ S.N + i
  hChain : ∀ i, i < S.R.length → S.K.getD (S.R.getD i 0) 0 ≠ S.R.getD i 0 →
    S.K.getD (S.R.getD i 0) 0 ∈ S.R →
    S.A.getD (S.K.getD (S.R.getD i 0) 0) 0 < S.N + i
  hFix : ∀ i, i < S.R.length → S.K.getD (S.R.getD i 0) 0 = S.R.getD i 0 →
    S.A.getD (S.R.getD i 0) 0 = S.L.getD (S.R.getD i 0) 0
  hLmono : ∀ i, i < S.R.length →
    S.L.getD (S.K.getD (S.R.getD i 0) 0) 0 ≤ S.L.getD (S.R.getD i 0) 0
  hKW : ∀ b, b < S.capacity → b ∉ S.R → S.K.getD b 0 = b
  hKR : ∀ i, i < S.R.length → S.K.getD (S.R.getD i 0) 0 < S.capacity
  hWL : ∀ i, i < S.N → S.W.getD i 0 < S.capacity ∧ S.W.getD i 0 ∉ S.R ∧
    S.L.getD (S.W.getD i 0) 0 = i
  hLW : ∀ b, b < S.capacity → b ∉ S.R → S.L.getD b 0 < S.N ∧
    S.W.getD (S.L.getD b 0) 0 = b
  hWge : ∀ i, i < S.capacity → i ≤ S.W.getD i 0
  hLle : ∀ b, b < S.capacity → S.L.getD b 0 ≤ b
  hLK : ∀ i, i < S.R.length → S.L.getD (S.R.getD i 0) 0 = S.N + i →
    S.K.getD (S.R.getD i 0) 0 = S.R.getD i 0
  hTopSlot : 0 < S.R.length →
    S.W.getD (S.L.getD (S.R.getD 0 0) 0) 0 = S.K.getD (S.R.getD 0 0) 0
  hTopL : 0 < S.R.length →
    S.L.getD (S.K.getD (S.R.getD 0 0) 0) 0 = S.L.getD (S.R.getD 0 0) 0

/-- Index access for a stack member: every member of R sits at some
depth. -/
theorem Inv.index_of_mem_R {S : Anchor} (_ : Inv S) {x : Nat} (hx : x ∈ S.R) :
    ∃ i, i < S.R.length ∧ S.R.getD i 0 = x :=
  getD_of_mem hx

/-- The anchor value of a bucket outside R is zero, hence any bucket with
a positive anchor value is a stack member. -/
theorem Inv.mem_R_of_A_pos {S : Anchor} (hInv : Inv S) {x : Nat} (hx : x < S.capacity)
    (hpos : 0 < S.A.getD x 0) : x ∈ S.R := by
  by_contra hmem
  have := hInv.hAW x hx hmem
  omega

/-- Anchor values are bounded by the capacity. -/
theorem Inv.A_lt {S : Anchor} (hInv : Inv S) {x : Nat} (hx : x < S.capacity) :
    S.A.getD x 0 < S.capacity := by
  by_cases hmem : x ∈ S.R
  · obtain ⟨i, hi, hxi⟩ := hInv.index_of_mem_R hmem
    have := hInv.hAR i hi
    rw [hxi] at this
    have := hInv.hNR
    omega
  · have := hInv.hAW x hx hmem
    omega

/-- One step of the successor walk: from a bucket h with A[h] at least
the pivot value ab and with recorded position L[h] below ab, the
successor K[h] stays in range, keeps its recorded position below ab, and
strictly decreases the anchor value. -/
theorem Inv.chain_step {S : Anchor} (hInv : Inv S) {ab h : Nat} (hab : 1 ≤ ab)
    (hh : h < S.capacity) (hLh : S.L.getD h 0 < ab) (hcond : ab ≤ S.A.getD h 0) :
    S.K.getD h 0 < S.capacity ∧ S.L.getD (S.K.getD h 0) 0 < ab ∧
      S.A.getD (S.K.getD h 0) 0 < S.A.getD h 0 := by
  have hmem : h ∈ S.R := hInv.mem_R_of_A_pos hh (by omega)
  obtain ⟨i, hi, hih⟩ := hInv.index_of_mem_R hmem
  have hAh : S.A.getD h 0 = S.N + i := by have := hInv.hAR i hi; rwa [hih] at this
  have hne : S.K.getD h 0 ≠ h := by
    intro heq
    have := hInv.hFix i hi (by rw [hih]; exact heq)
    rw [hih] at this
    omega
  refine ⟨?_, ?_, ?_⟩
  · have := hInv.hKR i hi; rwa [hih] at this
  · have := hInv.hLmono i hi; rw [hih] at this; omega
  · by_cases hmem2 : S.K.getD h 0 ∈ S.R
    · have := hInv.hChain i hi (by rw [hih]; exact hne) (by rwa [hih])
      rw [hih] at this
      omega
    · have hKlt : S.K.getD h 0 < S.capacity := by have := hInv.hKR i hi; rwa [hih] at this
      have := hInv.hAW _ hKlt hmem2
      omega

/-- Termination and correctness of the inner loop: with fuel at least
A[h], the walk ends at a bucket of the snapshot (anchor value below the
pivot ab) without panicking. -/
theorem seekLoop_ok {S : Anchor} (hInv : Inv S) {ab : Nat} (hab : 1 ≤ ab) :
    ∀ fuel h r, h < S.capacity → S.L.getD h 0 < ab → S.A.getD h 0 ≤ fuel →
    ∃ h' r', seekLoop S.A S.K ab fuel h r = .ok (h', r') ∧ h' < S.capacity ∧
      S.A.getD h' 0 < ab := by
  intro fuel
  induction fuel with
  | zero =>
    intro h r hh hLh hfuel
    have hget : S.A.get? h = some (S.A.getD h 0) := get?_eq_getD _ _ (by rw [hInv.lenA]; exact hh)
    refine ⟨h, r, ?_, hh, by omega⟩
    simp only [seekLoop, hget]
    rw [if_neg (by omega)]
  | succ fuel ih =>
    intro h r hh hLh hfuel
    have hget : S.A.get? h = some (S.A.getD h 0) := get?_eq_getD _ _ (by rw [hInv.lenA]; exact hh)
    by_cases hcond : ab ≤ S.A.getD h 0
    · obtain ⟨hK1, hK2, hK3⟩ := hInv.chain_step hab hh hLh hcond
      have hgetK : S.K.get? h = some (S.K.getD h 0) :=
        get?_eq_getD _ _ (by rw [hInv.lenK]; exact hh)
      obtain ⟨h', r', hrun, hh', hA'⟩ := ih (S.K.getD h 0) true hK1 hK2 (by omega)
      exact ⟨h', r', by simp only [seekLoop, hget, if_pos hcond, hgetK]; exact hrun, hh', hA'⟩
    · refine ⟨h, r, ?_, hh, by omega⟩
      simp only [seekLoop, hget]
      rw [if_neg hcond]

/-- Termination and correctness of the outer loop: with fuel at least
A[b], the loop ends at a bucket with anchor value zero. -/
theorem bucketLoop_ok {S : Anchor} (hInv : Inv S) (k : Nat) :
    ∀ fuel b r, b < S.capacity → S.A.getD b 0 ≤ fuel →
    ∃ b' r', bucketLoop S.A S.K k fuel b r = .ok (b', r') ∧ b' < S.capacity ∧
      S.A.getD b' 0 = 0 := by
  intro fuel
  induction fuel with
  | zero =>
    intro b r hb hfuel
    have hget : S.A.get? b = some (S.A.getD b 0) := get?_eq_getD _ _ (by rw [hInv.lenA]; exact hb)
    refine ⟨b, r, ?_, hb, by omega⟩
    simp only [bucketLoop, hget]
    rw [if_neg (by omega)]
  | succ fuel ih =>
    intro b r hb hfuel
    have hget : S.A.get? b = some (S.A.getD b 0) := get?_eq_getD _ _ (by rw [hInv.lenA]; exact hb)
    by_cases hcond : 0 < S.A.getD b 0
    · have hcap : 0 < S.capacity := by omega
      have hablt : S.A.getD b 0 < S.capacity := hInv.A_lt hb
      have hh0 : range_map (fasthash b k) (S.A.getD b 0) < S.A.getD b 0 :=
        range_map_lt (fasthash_lt _ _) hcond
      have hh0cap : range_map (fasthash b k) (S.A.getD b 0) < S.capacity := by omega
      have hLh0 : S.L.getD (range_map (fasthash b k) (S.A.getD b 0)) 0 < S.A.getD b 0 := by
        have := hInv.hLle _ hh0cap
        omega
      have hA0fuel : S.A.getD (range_map (fasthash b k) (S.A.getD b 0)) 0 ≤ S.A.length + 1 := by
        have := hInv.A_lt hh0cap
        rw [hInv.lenA]
        omega
      obtain ⟨h', r', hseek, hh', hA'⟩ :=
        seekLoop_ok hInv (by omega) (S.A.length + 1)
          (range_map (fasthash b k) (S.A.getD b 0)) r hh0cap hLh0 hA0fuel
      obtain ⟨b', r'', hrun, hb', hA''⟩ := ih h' r' hh' (by omega)
      refine ⟨b', r'', ?_, hb', hA''⟩
      simp only [bucketLoop, hget, if_pos hcond, hseek]
      exact hrun
    · refine ⟨b, r, ?_, hb, by omega⟩
      simp only [bucketLoop, hget]
      rw [if_neg hcond]

/-- Totality and correctness of get_bucket for any state satisfying the
invariant with positive capacity: it returns a bucket id below capacity
whose anchor value is zero. -/
theorem get_bucket_ok {S : Anchor} (hInv : Inv S) (hcap : 0 < S.capacity) {k : Nat}
    (hk : k < 2 ^ 32) :
    ∃ bk, S.get_bucket k = .ok bk ∧ bk.deref < S.capacity ∧ S.A.getD bk.deref 0 = 0 := by
  have hb0 : range_map k S.capacity < S.capacity := range_map_lt hk hcap
  have hfuel : S.A.getD (range_map k S.capacity) 0 ≤ S.A.length + 1 := by
    have := hInv.A_lt hb0
    rw [hInv.lenA]
    omega
  obtain ⟨b', r', hrun, hb', hA'⟩ :=
    bucketLoop_ok hInv k (S.A.length + 1) (range_map k S.capacity) false hb0 hfuel
  cases r' with
  | true => exact ⟨.Remapped b', by simp only [Anchor.get_bucket, hrun], hb', hA'⟩
  | false => exact ⟨.Original b', by simp only [Anchor.get_bucket, hrun], hb', hA'⟩

/-! Facts about the components of the initial state. -/

theorem new_capacity (cap w : Nat) : (Anchor.new cap w).capacity = cap := rfl

theorem new_A_getD (cap w b : Nat) (h : b < cap) :
    (Anchor.new cap w).A.getD b 0 = if b < w then 0 else b := by
  show ((List.range cap).map fun x => if x < w then 0 else x).getD b 0 = _
  have hlen : b < ((List.range cap).map fun x => if x < w then 0 else x).length := by
    simpa using h
  have h1 : ((List.range cap).map fun x => if x < w then 0 else x).get? b =
      ((List.range cap).get? b).map fun x => if x < w then 0 else x := List.get?_map _ _ _
  rw [List.get?_range h] at h1
  have h2 := get?_eq_getD ((List.range cap).map fun x => if x < w then 0 else x) b hlen
  rw [h1] at h2
  exact (Option.some_injective _ h2.symm)

theorem new_R_getD (cap w i : Nat) (h : i < cap - w) :
    (Anchor.new cap w).R.getD i 0 = w + i := getD_range' w (cap - w) i h

theorem new_R_mem (cap w x : Nat) (hw : w ≤ cap) :
    x ∈ (Anchor.new cap w).R ↔ w ≤ x ∧ x < cap := by
  show x ∈ List.range' w (cap - w) ↔ _
  rw [List.mem_range'_1]
  omega

theorem new_W_getD (cap w x : Nat) (h : x < cap) : (Anchor.new cap w).W.getD x 0 = x :=
  getD_range cap x h

theorem new_K_getD (cap w x : Nat) (h : x < cap) : (Anchor.new cap w).K.getD x 0 = x :=
  getD_range cap x h

theorem new_L_getD (cap w x : Nat) (h : x < cap) : (Anchor.new cap w).L.getD x 0 = x :=
  getD_range cap x h

/-- The invariant holds for every initial state with working ≤ capacity. -/
theorem Inv.new (cap w : Nat) (hw : w ≤ cap) : Inv (Anchor.new cap w) := by
  have hN : (Anchor.new cap w).N = w := rfl
  have hC : (Anchor.new cap w).capacity = cap := rfl
  have hRlen : (Anchor.new cap w).R.length = cap - w := by
    show (List.range' w (cap - w)).length = cap - w
    simp
  have hRi : ∀ i, i < (Anchor.new cap w).R.length → (Anchor.new cap w).R.getD i 0 = w + i := by
    intro i hi
    rw [hRlen] at hi
    exact new_R_getD cap w i hi
  have hRbound : ∀ i, i < (Anchor.new cap w).R.length → w + i < cap := by
    intro i hi
    rw [hRlen] at hi
    omega
  refine ⟨?_, ?_, ?_, ?_, ?_, ?_, ?_, ?_, ?_, ?_, ?_, ?_, ?_, ?_, ?_, ?_, ?_, ?_, ?_, ?_, ?_, ?_⟩
  · show ((List.range cap).map _).length = cap
    simp
  · show (List.range cap).length = cap
    simp
  · show (List.range cap).length = cap
    simp
  · show (List.range cap).length = cap
    simp
  · rw [hN, hC, hRlen]
    omega
  · intro i hi
    rw [hRi i hi, hC]
    exact hRbound i hi
  · intro i hi
    rw [hRi i hi, new_A_getD cap w _ (hRbound i hi), if_neg (by omega), hN]
  · intro b hb hmem
    rw [hC] at hb
    rw [new_A_getD cap w b hb, if_pos (by rw [new_R_mem cap w b hw] at hmem; omega)]
  · intro i hi
    rw [hRi i hi, hN, new_W_getD cap w _ (hRbound i hi), new_K_getD cap w _ (hRbound i hi)]
  · intro i hi
    rw [hRi i hi, new_L_getD cap w _ (hRbound i hi), hN]
  · intro i hi hne _
    exact absurd (by rw [hRi i hi]; exact new_K_getD cap w _ (hRbound i hi)) hne
  · intro i hi _
    rw [hRi i hi, new_A_getD cap w _ (hRbound i hi), if_neg (by omega),
      new_L_getD cap w _ (hRbound i hi)]
  · intro i hi
    rw [hRi i hi, new_K_getD cap w _ (hRbound i hi), new_L_getD cap w _ (hRbound i hi)]
  · intro b hb _
    rw [hC] at hb
    exact new_K_getD cap w b hb
  · intro i hi
    rw [hRi i hi, new_K_getD cap w _ (hRbound i hi), hC]
    exact hRbound i hi
  · intro i hi
    rw [hN] at hi
    have hicap : i < cap := by omega
    have hiR : (i : Nat) ∉ (Anchor.new cap w).R := by
      rw [new_R_mem cap w i hw]
      omega
    refine ⟨?_, ?_, ?_⟩
    · rw [new_W_getD cap w i hicap, hC]
      exact hicap
    · rw [new_W_getD cap w i hicap]
      exact hiR
    · rw [new_W_getD cap w i hicap, new_L_getD cap w i hicap]
  · intro b hb hmem
    rw [hC] at hb
    rw [new_R_mem cap w b hw] at hmem
    have hbw : b < w := by omega
    refine ⟨?_, ?_⟩
    · rw [new_L_getD cap w b hb, hN]
      exact hbw
    · rw [new_L_getD cap w b hb, new_W_getD cap w b hb]
  · intro i hi
    rw [hC] at hi
    rw [new_W_getD cap w i hi]
  · intro b hb
    rw [hC] at hb
    rw [new_L_getD cap w b hb]
  · intro i hi _
    rw [hRi i hi, new_K_getD cap w _ (hRbound i hi)]
  · intro h0
    have h0' : w < cap := by rw [hRlen] at h0; omega
    rw [hRi 0 h0, Nat.add_zero, new_L_getD cap w w h0', new_W_getD cap w w h0',
      new_K_getD cap w w h0']
  · intro h0
    have h0' : w < cap := by rw [hRlen] at h0; omega
    rw [hRi 0 h0, Nat.add_zero, new_K_getD cap w w h0']

/-! Destructuring successful removals. -/

theorem remove_bucket_eq_some {S : Anchor} {b : Nat} {S' : Anchor}
    (h : S.remove_bucket b = some S') :
    b < S.A.length ∧ S.A.getD b 0 = 0 ∧ 1 ≤ S.N ∧ S' = S.removeState b := by
  unfold Anchor.remove_bucket at h
  cases hget : S.A.get? b with
  | none => rw [hget] at h; exact absurd h (by simp)
  | some ab =>
    rw [hget] at h
    have hlt : b < S.A.length := by
      by_contra hge
      rw [List.get?_eq_none.mpr (by omega)] at hget
      exact Option.noConfusion hget
    have hab : S.A.getD b 0 = ab := by
      have h2 := get?_eq_getD S.A b hlt
      rw [hget] at h2
      exact (Option.some_injective _ h2).symm
    change (if ab = 0 then if S.N = 0 then none else some (S.removeState b) else none)
      = some S' at h
    by_cases h0 : ab = 0
    · rw [if_pos h0] at h
      by_cases hN : S.N = 0
      · rw [if_pos hN] at h; exact absurd h (by simp)
      · rw [if_neg hN] at h
        exact ⟨hlt, by omega, by omega, (Option.some_injective _ h).symm⟩
    · rw [if_neg h0] at h; exact absurd h (by simp)

theorem remove_bucket_eq_some_of {S : Anchor} {b : Nat} (h1 : b < S.A.length)
    (h2 : S.A.getD b 0 = 0) (h3 : 1 ≤ S.N) :
    S.remove_bucket b = some (S.removeState b) := by
  unfold Anchor.remove_bucket
  rw [get?_eq_getD S.A b h1]
  show (if S.A.getD b 0 = 0 then if S.N = 0 then none else some (S.removeState b) else none) = _
  rw [if_pos h2, if_neg (by omega)]

/-- Preservation of the invariant by a removal. -/
theorem Inv.remove {S : Anchor} (hInv : Inv S) {b : Nat} (hb : b < S.capacity)
    (hA0 : S.A.getD b 0 = 0) (hN1 : 1 ≤ S.N) : Inv (S.removeState b) := by
  set n' := S.N - 1 with hn'
  set lb := S.L.getD b 0 with hlb
  set d := S.W.getD n' 0 with hd0
  have hNcap : S.N ≤ S.capacity := by have := hInv.hNR; omega
  have hn'cap : n' < S.capacity := by omega
  have hbR : b ∉ S.R := by
    intro hmem
    obtain ⟨i, hi, hib⟩ := getD_of_mem hmem
    have := hInv.hAR i hi
    rw [hib] at this
    omega
  have hlbN : lb < S.N := (hInv.hLW b hb hbR).1
  have hWlb : S.W.getD lb 0 = b := (hInv.hLW b hb hbR).2
  have hdlt : d < S.capacity := (hInv.hWL n' (by omega)).1
  have hdR : d ∉ S.R := (hInv.hWL n' (by omega)).2.1
  have hLd : S.L.getD d 0 = n' := (hInv.hWL n' (by omega)).2.2
  have hbd : b = d ↔ lb = n' := by
    constructor
    · intro h
      rw [hlb, h, hLd]
    · intro h
      rw [← hWlb, h]
  have hd' : (S.W.set lb d).getD n' 0 = d := by
    by_cases h : lb = n'
    · rw [h]
      exact getD_set_self _ _ _ (by rw [hInv.lenW]; exact hn'cap)
    · exact getD_set_ne _ _ _ _ h
  have eqC : (S.removeState b).capacity = S.capacity := rfl
  have eqA : (S.removeState b).A = S.A.set b n' := rfl
  have eqR : (S.removeState b).R = b :: S.R := rfl
  have eqN : (S.removeState b).N = n' := rfl
  have eqW : (S.removeState b).W = S.W.set lb d := rfl
  have eqK : (S.removeState b).K = S.K.set b d := by
    show S.K.set b ((S.W.set lb d).getD n' 0) = _
    rw [hd']
  have eqL : (S.removeState b).L = S.L.set d lb := by
    show S.L.set ((S.W.set lb d).getD n' 0) lb = _
    rw [hd']
  have TA_b : (S.removeState b).A.getD b 0 = n' := by
    rw [eqA]
    exact getD_set_self _ _ _ (by rw [hInv.lenA]; exact hb)
  have TA_ne : ∀ x, x ≠ b → (S.removeState b).A.getD x 0 = S.A.getD x 0 := by
    intro x hx
    rw [eqA]
    exact getD_set_ne _ _ _ _ (fun h => hx h.symm)
  have TW_lb : (S.removeState b).W.getD lb 0 = d := by
    rw [eqW]
    exact getD_set_self _ _ _ (by rw [hInv.lenW]; omega)
  have TW_ne : ∀ x, x ≠ lb → (S.removeState b).W.getD x 0 = S.W.getD x 0 := by
    intro x hx
    rw [eqW]
    exact getD_set_ne _ _ _ _ (fun h => hx h.symm)
  have TW_n' : (S.removeState b).W.getD n' 0 = d := by rw [eqW]; exact hd'
  have TK_b : (S.removeState b).K.getD b 0 = d := by
    rw [eqK]
    exact getD_set_self _ _ _ (by rw [hInv.lenK]; exact hb)
  have TK_ne : ∀ x, x ≠ b → (S.removeState b).K.getD x 0 = S.K.getD x 0 := by
    intro x hx
    rw [eqK]
    exact getD_set_ne _ _ _ _ (fun h => hx h.symm)
  have TL_d : (S.removeState b).L.getD d 0 = lb := by
    rw [eqL]
    exact getD_set_self _ _ _ (by rw [hInv.lenL]; exact hdlt)
  have TL_ne : ∀ x, x ≠ d → (S.removeState b).L.getD x 0 = S.L.getD x 0 := by
    intro x hx
    rw [eqL]
    exact getD_set_ne _ _ _ _ (fun h => hx h.symm)
  have TL_b : (S.removeState b).L.getD b 0 = lb := by
    by_cases h : b = d
    · have e : (S.removeState b).L.getD b 0 = (S.removeState b).L.getD d 0 := by rw [h]
      rw [e, TL_d]
    · rw [TL_ne b h, hlb]
  have TRlen : (S.removeState b).R.length = S.R.length + 1 := by rw [eqR]; rfl
  have TR0 : (S.removeState b).R.getD 0 0 = b := by rw [eqR]; rfl
  have TRsucc : ∀ j, (S.removeState b).R.getD (j + 1) 0 = S.R.getD j 0 := by
    intro j
    rw [eqR]
    rfl
  have TRmem : ∀ x, x ∈ (S.removeState b).R ↔ x = b ∨ x ∈ S.R := by
    intro x
    rw [eqR]
    simp
  have hRb : ∀ i, i < S.R.length → S.R.getD i 0 ≠ b := by
    intro i hi h
    exact hbR (h ▸ mem_of_getD hi)
  have hRd : ∀ i, i < S.R.length → S.R.getD i 0 ≠ d := by
    intro i hi h
    exact hdR (h ▸ mem_of_getD hi)
  refine ⟨?_, ?_, ?_, ?_, ?_, ?_, ?_, ?_, ?_, ?_, ?_, ?_, ?_, ?_, ?_, ?_, ?_, ?_, ?_, ?_, ?_, ?_⟩
  · rw [eqA, eqC, List.length_set, hInv.lenA]
  · rw [eqW, eqC, List.length_set, hInv.lenW]
  · rw [eqK, eqC, List.length_set, hInv.lenK]
  · rw [eqL, eqC, List.length_set, hInv.lenL]
  · rw [eqN, eqC, TRlen]
    have := hInv.hNR
    omega
  · intro i hi
    rw [TRlen] at hi
    rw [eqC]
    cases i with
    | zero => rw [TR0]; exact hb
    | succ j => rw [TRsucc j]; exact hInv.hRlt j (by omega)
  · intro i hi
    rw [TRlen] at hi
    rw [eqN]
    cases i with
    | zero => rw [TR0, TA_b]; omega
    | succ j =>
      rw [TRsucc j, TA_ne _ (hRb j (by omega))]
      have := hInv.hAR j (by omega)
      omega
  · intro x hx hmem
    rw [eqC] at hx
    rw [TRmem] at hmem
    push_neg at hmem
    rw [TA_ne x hmem.1]
    exact hInv.hAW x hx hmem.2
  · intro i hi
    rw [TRlen] at hi
    rw [eqN]
    cases i with
    | zero => rw [TR0, TK_b, Nat.add_zero, TW_n']
    | succ j =>
      have hj : j < S.R.length := by omega
      have hidx : n' + (j + 1) = S.N + j := by omega
      have hne_lb : S.N + j ≠ lb := by omega
      rw [TRsucc j, TK_ne _ (hRb j hj), hidx, TW_ne _ (fun h => hne_lb h)]
      exact hInv.hScr j hj
  · intro i hi
    rw [TRlen] at hi
    rw [eqN]
    cases i with
    | zero => rw [TR0, TL_b]; omega
    | succ j =>
      have hj : j < S.R.length := by omega
      rw [TRsucc j, TL_ne _ (hRd j hj)]
      have := hInv.hLR j hj
      omega
  · intro i hi hne hmem
    rw [TRlen] at hi
    rw [eqN]
    cases i with
    | zero =>
      rw [TR0] at hne hmem ⊢
      rw [TK_b] at hne hmem ⊢
      rw [TRmem] at hmem
      rcases hmem with h | h
      · exact absurd h hne
      · exact absurd h hdR
    | succ j =>
      have hj : j < S.R.length := by omega
      rw [TRsucc j] at hne hmem ⊢
      rw [TK_ne _ (hRb j hj)] at hne hmem ⊢
      rw [TRmem] at hmem
      rcases hmem with h | h
      · rw [h, TA_b]
        omega
      · have hKne : S.K.getD (S.R.getD j 0) 0 ≠ b := by
          intro heq
          exact hbR (heq ▸ h)
        rw [TA_ne _ hKne]
        have := hInv.hChain j hj hne h
        omega
  · intro i hi hfix
    rw [TRlen] at hi
    cases i with
    | zero =>
      rw [TR0] at hfix ⊢
      rw [TK_b] at hfix
      have hlbn : lb = n' := hbd.mp hfix.symm
      rw [TA_b, TL_b, hlbn]
    | succ j =>
      have hj : j < S.R.length := by omega
      rw [TRsucc j] at hfix ⊢
      rw [TK_ne _ (hRb j hj)] at hfix
      rw [TA_ne _ (hRb j hj), TL_ne _ (hRd j hj)]
      exact hInv.hFix j hj hfix
  · intro i hi
    rw [TRlen] at hi
    cases i with
    | zero =>
      rw [TR0, TK_b, TL_d, TL_b]
    | succ j =>
      have hj : j < S.R.length := by omega
      rw [TRsucc j, TK_ne _ (hRb j hj), TL_ne _ (hRd j hj)]
      by_cases hcd : S.K.getD (S.R.getD j 0) 0 = d
      · rw [hcd, TL_d]
        have h1 := hInv.hLmono j hj
        rw [hcd, hLd] at h1
        omega
      · rw [TL_ne _ hcd]
        exact hInv.hLmono j hj
  · intro x hx hmem
    rw [eqC] at hx
    rw [TRmem] at hmem
    push_neg at hmem
    rw [TK_ne x hmem.1]
    exact hInv.hKW x hx hmem.2
  · intro i hi
    rw [TRlen] at hi
    rw [eqC]
    cases i with
    | zero => rw [TR0, TK_b]; exact hdlt
    | succ j =>
      have hj : j < S.R.length := by omega
      rw [TRsucc j, TK_ne _ (hRb j hj)]
      exact hInv.hKR j hj
  · intro i hi
    rw [eqN] at hi
    have hiN : i < S.N := by omega
    by_cases hilb : i = lb
    · have hdb : d ≠ b := by
        intro h
        have := hbd.mp h.symm
        omega
      refine ⟨?_, ?_, ?_⟩
      · rw [hilb, TW_lb, eqC]
        exact hdlt
      · rw [hilb, TW_lb, TRmem]
        push_neg
        exact ⟨hdb, hdR⟩
      · rw [hilb, TW_lb, TL_d]
    · obtain ⟨hW1, hW2, hW3⟩ := hInv.hWL i hiN
      have hWib : S.W.getD i 0 ≠ b := by
        intro h
        rw [h, hlb.symm] at hW3
        exact hilb hW3.symm
      have hWid : S.W.getD i 0 ≠ d := by
        intro h
        rw [h, hLd] at hW3
        omega
      refine ⟨?_, ?_, ?_⟩
      · rw [TW_ne i hilb, eqC]
        exact hW1
      · rw [TW_ne i hilb, TRmem]
        push_neg
        exact ⟨hWib, hW2⟩
      · rw [TW_ne i hilb, TL_ne _ hWid]
        exact hW3
  · intro x hx hmem
    rw [eqC] at hx
    rw [TRmem] at hmem
    push_neg at hmem
    obtain ⟨hxb, hxR⟩ := hmem
    obtain ⟨hL1, hL2⟩ := hInv.hLW x hx hxR
    by_cases hxd : x = d
    · have hlbn' : lb ≠ n' := by
        intro h
        exact hxb (hxd.trans (hbd.mpr h).symm)
      refine ⟨?_, ?_⟩
      · rw [hxd, TL_d, eqN]
        omega
      · rw [hxd, TL_d, TW_lb]
    · have hLxn : S.L.getD x 0 ≠ n' := by
        intro h
        rw [h] at hL2
        exact hxd (hL2.symm.trans hd0.symm)
      have hLxlb : S.L.getD x 0 ≠ lb := by
        intro h
        rw [h, hWlb] at hL2
        exact hxb hL2.symm
      refine ⟨?_, ?_⟩
      · rw [TL_ne x hxd, eqN]
        omega
      · rw [TL_ne x hxd, TW_ne _ hLxlb]
        exact hL2
  · intro i hi
    rw [eqC] at hi
    by_cases hilb : i = lb
    · rw [hilb, TW_lb]
      have := hInv.hWge n' hn'cap
      omega
    · rw [TW_ne i hilb]
      exact hInv.hWge i hi
  · intro x hx
    rw [eqC] at hx
    by_cases hxd : x = d
    · rw [hxd, TL_d]
      have := hInv.hWge n' hn'cap
      omega
    · rw [TL_ne x hxd]
      exact hInv.hLle x hx
  · intro i hi hcond
    rw [TRlen] at hi
    rw [eqN] at hcond
    cases i with
    | zero =>
      rw [TR0] at hcond ⊢
      rw [TL_b] at hcond
      rw [Nat.add_zero] at hcond
      rw [TK_b]
      exact (hbd.mpr hcond).symm
    | succ j =>
      have hj : j < S.R.length := by omega
      rw [TRsucc j] at hcond ⊢
      rw [TL_ne _ (hRd j hj)] at hcond
      rw [TK_ne _ (hRb j hj)]
      exact hInv.hLK j hj (by omega)
  · intro h0
    rw [TR0, TL_b, TW_lb, TK_b]
  · intro h0
    rw [TR0, TK_b, TL_d, TL_b]

/-! A successful add_bucket exactly undoes the most recent removal. -/

theorem get?_set_self {α : Type _} (l : List α) (i : Nat) (v : α) (h : i < l.length) :
    (l.set i v).get? i = some v := by
  induction l generalizing i with
  | nil => simp at h
  | cons a t ih =>
    cases i with
    | zero => rfl
    | succ j =>
      simp only [List.length_cons, Nat.succ_lt_succ_iff] at h
      simpa [List.set] using ih j h

theorem add_bucket_cons {S : Anchor} {b : Nat} {R' : List Nat} (h : S.R = b :: R') :
    S.add_bucket = some (b, { S with
      A := S.A.set b 0,
      R := R',
      N := S.N + 1,
      W := S.W.set ((S.L.set (S.W.getD S.N 0) S.N).getD b 0) b,
      K := S.K.set b b,
      L := S.L.set (S.W.getD S.N 0) S.N }) := by
  unfold Anchor.add_bucket
  rw [h]

/-- Adding directly after a removal restores the exact previous state. -/
theorem removeState_add_bucket {S : Anchor} (hInv : Inv S) {b : Nat} (hb : b < S.capacity)
    (hA0 : S.A.getD b 0 = 0) (hN1 : 1 ≤ S.N) :
    (S.removeState b).add_bucket = some (b, S) := by
  set n' := S.N - 1 with hn'
  set lb := S.L.getD b 0 with hlb
  set d := S.W.getD n' 0 with hd0
  have hNcap : S.N ≤ S.capacity := by have := hInv.hNR; omega
  have hn'cap : n' < S.capacity := by omega
  have hbR : b ∉ S.R := by
    intro hmem
    obtain ⟨i, hi, hib⟩ := getD_of_mem hmem
    have := hInv.hAR i hi
    rw [hib] at this
    omega
  have hlbN : lb < S.N := (hInv.hLW b hb hbR).1
  have hWlb : S.W.getD lb 0 = b := (hInv.hLW b hb hbR).2
  have hdlt : d < S.capacity := (hInv.hWL n' (by omega)).1
  have hLd : S.L.getD d 0 = n' := (hInv.hWL n' (by omega)).2.2
  have hd' : (S.W.set lb d).getD n' 0 = d := by
    by_cases h : lb = n'
    · rw [h]
      exact getD_set_self _ _ _ (by rw [hInv.lenW]; exact hn'cap)
    · exact getD_set_ne _ _ _ _ h
  have eqA : (S.removeState b).A = S.A.set b n' := rfl
  have eqN : (S.removeState b).N = n' := rfl
  have eqW : (S.removeState b).W = S.W.set lb d := rfl
  have eqK : (S.removeState b).K = S.K.set b d := by
    show S.K.set b ((S.W.set lb d).getD n' 0) = _
    rw [hd']
  have eqL : (S.removeState b).L = S.L.set d lb := by
    show S.L.set ((S.W.set lb d).getD n' 0) lb = _
    rw [hd']
  have TW_n' : (S.removeState b).W.getD (S.removeState b).N 0 = d := by rw [eqW, eqN]; exact hd'
  rw [add_bucket_cons (show (S.removeState b).R = b :: S.R from rfl)]
  refine congrArg some (congrArg (Prod.mk b) ?_)
  have hLcomp : (S.removeState b).L.set ((S.removeState b).W.getD (S.removeState b).N 0)
      (S.removeState b).N = S.L := by
    rw [TW_n', eqN, eqL, List.set_set]
    rw [← hLd]
    exact set_getD_eq _ _ (by rw [hInv.lenL]; exact hdlt)
  have hAcomp : (S.removeState b).A.set b 0 = S.A := by
    rw [eqA, List.set_set, ← hA0]
    exact set_getD_eq _ _ (by rw [hInv.lenA]; exact hb)
  have hKcomp : (S.removeState b).K.set b b = S.K := by
    rw [eqK, List.set_set]
    have hKb : S.K.getD b 0 = b := hInv.hKW b hb hbR
    nth_rewrite 2 [← hKb]
    exact set_getD_eq _ _ (by rw [hInv.lenK]; exact hb)
  have hNcomp : (S.removeState b).N + 1 = S.N := by rw [eqN]; omega
  rw [hLcomp]
  have hWcomp : (S.removeState b).W.set (S.L.getD b 0) b = S.W := by
    rw [eqW, ← hlb, List.set_set, ← hWlb]
    exact set_getD_eq _ _ (by rw [hInv.lenW]; omega)
  rw [hWcomp, hAcomp, hKcomp, hNcomp]
  rfl

/-- Adding to a fresh anchor activates the next bucket in order: the
result is exactly the fresh anchor with one more working bucket. -/
theorem new_add_bucket (cap w : Nat) (hw : w < cap) :
    (Anchor.new cap w).add_bucket = some (w, Anchor.new cap (w + 1)) := by
  have hR : (Anchor.new cap w).R = w :: List.range' (w + 1) (cap - (w + 1)) := by
    show List.range' w (cap - w) = _
    have h1 : cap - w = (cap - (w + 1)) + 1 := by omega
    rw [h1]
    rfl
  rw [add_bucket_cons hR]
  refine congrArg some (congrArg (Prod.mk w) ?_)
  have hWw : (Anchor.new cap w).W.getD (Anchor.new cap w).N 0 = w := new_W_getD cap w w hw
  have hrange : ∀ x, x < cap → (List.range cap).getD x 0 = x := getD_range cap
  have hsetid : (List.range cap).set w w = List.range cap := by
    nth_rewrite 2 [← hrange w hw]
    exact set_getD_eq (List.range cap) w (by simpa using hw)
  have hLcomp : (Anchor.new cap w).L.set ((Anchor.new cap w).W.getD (Anchor.new cap w).N 0)
      (Anchor.new cap w).N = List.range cap := by
    rw [hWw]
    show (List.range cap).set w w = _
    exact hsetid
  rw [hLcomp]
  have hAcomp : (Anchor.new cap w).A.set w 0 =
      (List.range cap).map fun x => if x < w + 1 then 0 else x := by
    show ((List.range cap).map fun x => if x < w then 0 else x).set w 0 = _
    apply List.ext
    intro i
    by_cases hi : i < cap
    · have hlen : i < ((List.range cap).map fun x => if x < w then 0 else x).length := by
        simpa using hi
      have hmap : ∀ (v : Nat), ((List.range cap).map fun x => if x < v then 0 else x).get? i =
          some (if i < v then 0 else i) := by
        intro v
        rw [List.get?_map, List.get?_range hi]
        rfl
      by_cases hiw : i = w
      · subst hiw
        rw [get?_set_self ((List.range cap).map fun x => if x < i then 0 else x) i 0 hlen,
          hmap (i + 1), if_pos (by omega)]
      · rw [get?_set_ne _ _ _ _ (fun h => hiw h.symm), hmap w, hmap (w + 1)]
        congr 1
        by_cases hiw2 : i < w
        · rw [if_pos hiw2, if_pos (by omega)]
        · rw [if_neg hiw2, if_neg (by omega)]
    · rw [List.get?_eq_none.mpr, List.get?_eq_none.mpr]
      · simpa using hi
      · simp only [List.length_set, List.length_map, List.length_range]
        omega
  rw [hAcomp]
  have hgd : (List.range cap).getD w 0 = w := hrange w hw
  show Anchor.mk cap _ _ (w + 1) ((List.range cap).set ((List.range cap).getD w 0) w)
      ((List.range cap).set w w) (List.range cap) = Anchor.new cap (w + 1)
  rw [hgd, hsetid]
  rfl

/-- Every pure-removal-reachable state satisfies the invariant. -/
theorem prr_inv {S : Anchor} (h : PRR S) : Inv S := by
  induction h with
  | new cap w hw => exact Inv.new cap w hw
  | remove T y T' hT hrem ih =>
    obtain ⟨h1, h2, h3, h4⟩ := remove_bucket_eq_some hrem
    rw [h4]
    exact ih.remove (by rw [← ih.lenA]; exact h1) h2 h3

/-- Every reachable state is pure-removal reachable: a failing add
changes nothing and a successful add cancels the latest removal. -/
theorem reachable_prr {S : Anchor} (h : Reachable S) : PRR S := by
  induction h with
  | new cap w hw => exact PRR.new cap w hw
  | add S b S' hS hadd ih =>
    cases ih with
    | new cap w hw =>
      by_cases hwc : w < cap
      · rw [new_add_bucket cap w hwc] at hadd
        have h2 := Option.some_injective _ hadd
        rw [Prod.mk.injEq] at h2
        rw [← h2.2]
        exact PRR.new cap (w + 1) (by omega)
      · have hwcap : w = cap := by omega
        have hnone : (Anchor.new cap w).add_bucket = none := by
          unfold Anchor.add_bucket
          have : (Anchor.new cap w).R = [] := by
            show List.range' w (cap - w) = []
            rw [show cap - w = 0 by omega]
            rfl
          rw [this]
        rw [hnone] at hadd
        exact Option.noConfusion hadd
    | remove T y T' hT hrem =>
      have hInvT : Inv T := prr_inv hT
      obtain ⟨h1, h2, h3, h4⟩ := remove_bucket_eq_some hrem
      rw [h4] at hadd
      rw [removeState_add_bucket hInvT (by rw [← hInvT.lenA]; exact h1) h2 h3] at hadd
      have h5 := Option.some_injective _ hadd
      rw [Prod.mk.injEq] at h5
      rw [← h5.2]
      exact hT
  | remove S b S' hS hrem ih => exact PRR.remove S b S' ih hrem

/-- Every reachable state satisfies the invariant. -/
theorem reachable_inv {S : Anchor} (h : Reachable S) : Inv S := prr_inv (reachable_prr h)

/-!
Locality of get_bucket: the loops only read A and K at the buckets they
visit, and a visit to a bucket whose anchor value is zero immediately
ends the search there.  Hence two states that differ only at a working
bucket b resolve every key not mapping to b identically.
-/

theorem seekLoop_agree {A₁ K₁ A₂ K₂ : List Nat} {b : Nat}
    (hA : ∀ x, x ≠ b → A₂.get? x = A₁.get? x)
    (hK : ∀ x, x ≠ b → K₂.get? x = K₁.get? x)
    (hAb : A₁.get? b = some 0) {ab : Nat} (hab : 1 ≤ ab) :
    ∀ fuel h r h' r', seekLoop A₁ K₁ ab fuel h r = .ok (h', r') → h' ≠ b →
      seekLoop A₂ K₂ ab fuel h r = .ok (h', r') := by
  intro fuel
  induction fuel with
  | zero =>
    intro h r h' r' hrun hne
    by_cases hhb : h = b
    · subst hhb
      simp only [seekLoop, hAb, if_neg (show ¬ ab ≤ 0 by omega)] at hrun
      rw [Except.ok.injEq, Prod.mk.injEq] at hrun
      exact absurd hrun.1.symm hne
    · rw [seekLoop, hA h hhb]
      rw [seekLoop] at hrun
      exact hrun
  | succ fuel ih =>
    intro h r h' r' hrun hne
    by_cases hhb : h = b
    · subst hhb
      simp only [seekLoop, hAb, if_neg (show ¬ ab ≤ 0 by omega)] at hrun
      rw [Except.ok.injEq, Prod.mk.injEq] at hrun
      exact absurd hrun.1.symm hne
    · rw [seekLoop, hA h hhb, hK h hhb]
      rw [seekLoop] at hrun
      cases hget : A₁.get? h with
      | none => simp only [hget] at hrun; exact absurd hrun (by simp)
      | some ah =>
        simp only [hget] at hrun ⊢
        by_cases hcond : ab ≤ ah
        · rw [if_pos hcond] at hrun ⊢
          cases hgetK : K₁.get? h with
          | none => simp only [hgetK] at hrun; exact absurd hrun (by simp)
          | some kh =>
            simp only [hgetK] at hrun ⊢
            exact ih kh true h' r' hrun hne
        · rw [if_neg hcond] at hrun ⊢
          exact hrun

/-- A bucket whose anchor value reads zero ends the outer loop at once,
with any fuel. -/
theorem bucketLoop_at_zero {A K : List Nat} {k cur : Nat} (h : A.get? cur = some 0) :
    ∀ fuel r, bucketLoop A K k fuel cur r = .ok (cur, r) := by
  intro fuel r
  cases fuel with
  | zero => simp only [bucketLoop, h]; rw [if_neg (by omega)]
  | succ fuel => simp only [bucketLoop, h]; rw [if_neg (by omega)]

theorem bucketLoop_agree {A₁ K₁ A₂ K₂ : List Nat} {b k : Nat}
    (hlen : A₂.length = A₁.length)
    (hA : ∀ x, x ≠ b → A₂.get? x = A₁.get? x)
    (hK : ∀ x, x ≠ b → K₂.get? x = K₁.get? x)
    (hAb : A₁.get? b = some 0) :
    ∀ fuel cur r b' r', bucketLoop A₁ K₁ k fuel cur r = .ok (b', r') → b' ≠ b →
      bucketLoop A₂ K₂ k fuel cur r = .ok (b', r') := by
  intro fuel
  induction fuel with
  | zero =>
    intro cur r b' r' hrun hne
    by_cases hcb : cur = b
    · subst hcb
      rw [bucketLoop_at_zero hAb, Except.ok.injEq, Prod.mk.injEq] at hrun
      exact absurd hrun.1.symm hne
    · rw [bucketLoop, hA cur hcb]
      rw [bucketLoop] at hrun
      exact hrun
  | succ fuel ih =>
    intro cur r b' r' hrun hne
    by_cases hcb : cur = b
    · subst hcb
      rw [bucketLoop_at_zero hAb, Except.ok.injEq, Prod.mk.injEq] at hrun
      exact absurd hrun.1.symm hne
    · rw [bucketLoop, hA cur hcb]
      rw [bucketLoop] at hrun
      cases hget : A₁.get? cur with
      | none => simp only [hget] at hrun; exact absurd hrun (by simp)
      | some ab =>
        simp only [hget] at hrun ⊢
        by_cases hcond : 0 < ab
        · rw [if_pos hcond] at hrun ⊢
          cases hseek : seekLoop A₁ K₁ ab (A₁.length + 1) (range_map (fasthash cur k) ab) r with
          | error e => simp only [hseek] at hrun; exact absurd hrun (by simp)
          | ok p =>
            obtain ⟨h, r₂⟩ := p
            simp only [hseek] at hrun
            have hhb : h ≠ b := by
              intro heq
              subst heq
              rw [bucketLoop_at_zero hAb, Except.ok.injEq, Prod.mk.injEq] at hrun
              exact hne hrun.1.symm
            have hseek2 : seekLoop A₂ K₂ ab (A₂.length + 1)
                (range_map (fasthash cur k) ab) r = .ok (h, r₂) := by
              rw [hlen]
              exact seekLoop_agree hA hK hAb (by omega) _ _ _ _ _ hseek hhb
            rw [hseek2]
            exact ih h r₂ b' r' hrun hne
        · rw [if_neg hcond] at hrun ⊢
          exact hrun

/-- Two anchors that agree on capacity, A and K except at a bucket b that
is working in the first resolve every key not resolving to b
identically. -/
theorem get_bucket_agree {S₁ S₂ : Anchor} {b : Nat}
    (hcap : S₂.capacity = S₁.capacity) (hlen : S₂.A.length = S₁.A.length)
    (hA : ∀ x, x ≠ b → S₂.A.get? x = S₁.A.get? x)
    (hK : ∀ x, x ≠ b → S₂.K.get? x = S₁.K.get? x)
    (hAb : S₁.A.get? b = some 0) :
    ∀ k bk, S₁.get_bucket k = .ok bk → bk.deref ≠ b → S₂.get_bucket k = .ok bk := by
  intro k bk hrun hne
  unfold Anchor.get_bucket at hrun ⊢
  rw [hcap, hlen]
  cases hloop : bucketLoop S₁.A S₁.K k (S₁.A.length + 1) (range_map k S₁.capacity) false with
  | error e => rw [hloop] at hrun; exact absurd hrun (by simp)
  | ok p =>
    obtain ⟨b', r'⟩ := p
    rw [hloop] at hrun
    have hderef : bk.deref = b' := by
      cases r' with
      | true => rw [Except.ok.injEq] at hrun; rw [← hrun]; rfl
      | false => rw [Except.ok.injEq] at hrun; rw [← hrun]; rfl
    have hb' : b' ≠ b := by rw [← hderef]; exact hne
    rw [bucketLoop_agree hlen hA hK hAb _ _ _ _ _ hloop hb']
    exact hrun

/-!
Counting instrumentation for the Remapped flag: get_bucket_count runs the
same loops but counts the iterations of the inner loop instead of
tracking the boolean flag.  The bridge theorems show the flag is set iff
the total count is positive.
-/

def seekCount (A K : List Nat) (ab : Nat) : Nat → Nat → Except GetErr (Nat × Nat)
  | 0, h =>
    match A.get? h with
    | none => .error .oob
    | some ah => if ab ≤ ah then .error .fuel else .ok (h, 0)
  | fuel + 1, h =>
    match A.get? h with
    | none => .error .oob
    | some ah =>
      if ab ≤ ah then
        match K.get? h with
        | none => .error .oob
        | some kh =>
          match seekCount A K ab fuel kh with
          | .error e => .error e
          | .ok (h', n) => .ok (h', n + 1)
      else .ok (h, 0)

def bucketCount (A K : List Nat) (k : Nat) : Nat → Nat → Except GetErr (Nat × Nat)
  | 0, b =>
    match A.get? b with
    | none => .error .oob
    | some ab => if 0 < ab then .error .fuel else .ok (b, 0)
  | fuel + 1, b =>
    match A.get? b with
    | none => .error .oob
    | some ab =>
      if 0 < ab then
        match seekCount A K ab (A.length + 1) (range_map (fasthash b k) ab) with
        | .error e => .error e
        | .ok (h, n) =>
          match bucketCount A K k fuel h with
          | .error e => .error e
          | .ok (b', m) => .ok (b', n + m)
      else .ok (b, 0)

/-- Anchor.get_bucket_count resolves a key like Anchor.get_bucket but
returns the resolved id together with the number of iterations the inner
loop performed over the whole search. -/
def Anchor.get_bucket_count (S : Anchor) (k : Nat) : Except GetErr (Nat × Nat) :=
  bucketCount S.A S.K k (S.A.length + 1) (range_map k S.capacity)

theorem or_decide_add (r : Bool) (n m : Nat) :
    (r || decide (0 < n) || decide (0 < m)) = (r || decide (0 < n + m)) := by
  by_cases h1 : 0 < n
  · have h3 : 0 < n + m := by omega
    simp [h1, h3]
  · by_cases h2 : 0 < m
    · have h3 : 0 < n + m := by omega
      simp [h1, h2, h3]
    · have h3 : ¬ 0 < n + m := by omega
      simp [h1, h2, h3]

theorem seekLoop_eq_count (A K : List Nat) (ab : Nat) :
    ∀ fuel h r, seekLoop A K ab fuel h r =
      (seekCount A K ab fuel h).map fun p => (p.1, r || decide (0 < p.2)) := by
  intro fuel
  induction fuel with
  | zero =>
    intro h r
    rw [seekLoop, seekCount]
    cases heq : A.get? h with
    | none => simp only [heq]; rfl
    | some ah =>
      simp only [heq]
      by_cases hcond : ab ≤ ah
      · rw [if_pos hcond, if_pos hcond]
        rfl
      · rw [if_neg hcond, if_neg hcond]
        simp [Except.map]
  | succ fuel ih =>
    intro h r
    rw [seekLoop, seekCount]
    cases heq : A.get? h with
    | none => simp only [heq]; rfl
    | some ah =>
      simp only [heq]
      by_cases hcond : ab ≤ ah
      · rw [if_pos hcond, if_pos hcond]
        cases heqK : K.get? h with
        | none => simp only [heqK]; rfl
        | some kh =>
          simp only [heqK]
          rw [ih kh true]
          cases heqC : seekCount A K ab fuel kh with
          | error e => simp only [heqC, Except.map]
          | ok p =>
            obtain ⟨h', n⟩ := p
            simp only [heqC, Except.map]
            simp
      · rw [if_neg hcond, if_neg hcond]
        simp [Except.map]

theorem bucketLoop_eq_count (A K : List Nat) (k : Nat) :
    ∀ fuel b r, bucketLoop A K k fuel b r =
      (bucketCount A K k fuel b).map fun p => (p.1, r || decide (0 < p.2)) := by
  intro fuel
  induction fuel with
  | zero =>
    intro b r
    rw [bucketLoop, bucketCount]
    cases heq : A.get? b with
    | none => simp only [heq]; rfl
    | some ab =>
      simp only [heq]
      by_cases hcond : 0 < ab
      · rw [if_pos hcond, if_pos hcond]
        rfl
      · rw [if_neg hcond, if_neg hcond]
        simp [Except.map]
  | succ fuel ih =>
    intro b r
    rw [bucketLoop, bucketCount]
    cases heq : A.get? b with
    | none => simp only [heq]; rfl
    | some ab =>
      simp only [heq]
      by_cases hcond : 0 < ab
      · rw [if_pos hcond, if_pos hcond]
        rw [seekLoop_eq_count]
        cases heqS : seekCount A K ab (A.length + 1) (range_map (fasthash b k) ab) with
        | error e => simp only [heqS, Except.map]
        | ok p =>
          obtain ⟨h, n⟩ := p
          simp only [heqS, Except.map]
          rw [ih h (r || decide (0 < n))]
          cases heqB : bucketCount A K k fuel h with
          | error e => simp only [heqB, Except.map]
          | ok q =>
            obtain ⟨b', m⟩ := q
            simp only [heqB, Except.map]
            rw [or_decide_add]
      · rw [if_neg hcond, if_neg hcond]
        simp [Except.map]

/-!
Component D: the resource binding (src/anchor_hash.rs), and component E,
the builder.  The hasher field models the BuildHasher: it maps a key to
the 64-bit digest that Hasher::finish would produce.  The HashMap of
resources is modelled as an association list with unique keys (the
binding invariant below shows keys stay unique, so list insertion by
consing matches HashMap insertion).
-/

/-- Error models the public error enum of the crate. -/
inductive Error : Type where
  | CapacityLimitReached
  | ResourceNotFound
deriving Repr, DecidableEq

/-- AnchorHash models struct AnchorHash: an Anchor, the key hasher and
the bucket to resource mapping. -/
structure AnchorHash (Key Res : Type) : Type where
  anchor : Anchor
  hasher : Key → Nat
  resources : List (Nat × Res)

/-- AnchorHash.get_resource models AnchorHash::get_resource: hash the
key to 64 bits, truncate to the low 32 bits, resolve the bucket and look
it up in the mapping.  A panic inside get_bucket propagates. -/
def AnchorHash.get_resource {Key Res : Type} (H : AnchorHash Key Res) (key : Key) :
    Except GetErr (Option Res) :=
  let k := H.hasher key % 2 ^ 64
  match H.anchor.get_bucket (k % 2 ^ 32) with
  | .error e => .error e
  | .ok b => .ok ((H.resources.find? fun p => p.1 == b.deref).map Prod.snd)

/-- AnchorHash.add_resource models AnchorHash::add_resource.  The outer
none models the assert! that the popped bucket was not already mapped
(never reachable, by the binding invariant); the inner Except mirrors
the Result, and the returned AnchorHash is the state after the call
(unchanged when the capacity error is returned). -/
def AnchorHash.add_resource {Key Res : Type} (H : AnchorHash Key Res) (r : Res) :
    Option (Except Error Unit × AnchorHash Key Res) :=
  match H.anchor.add_bucket with
  | none => some (.error .CapacityLimitReached, H)
  | some (b, anchor') =>
    if H.resources.any fun p => p.1 == b then none
    else some (.ok (), { H with anchor := anchor', resources := (b, r) :: H.resources })

/-- AnchorHash.remove_resource models AnchorHash::remove_resource: a
linear scan for the first entry whose value equals the argument, then
removal from the mapping and from the anchor.  The outer none models the
panic inside Anchor::remove_bucket (never reachable, by the binding
invariant). -/
def AnchorHash.remove_resource {Key Res : Type} [DecidableEq Res] (H : AnchorHash Key Res)
    (r : Res) : Option (Except Error Unit × AnchorHash Key Res) :=
  match H.resources.find? fun p => decide (p.2 = r) with
  | none => some (.error .ResourceNotFound, H)
  | some p =>
    match H.anchor.remove_bucket p.1 with
    | none => none
    | some anchor' =>
      some (.ok (),
        { H with anchor := anchor', resources := H.resources.filter fun q => !(q.1 == p.1) })

/-- Builder.build models Builder::build: an Anchor with zero working
buckets, then one add_bucket and map insertion per initial resource.
none models the expect-panic when the resources exceed the capacity. -/
def Builder.build {Key Res : Type} (hasher : Key → Nat) (resources : List Res)
    (capacity : Nat) : Option (AnchorHash Key Res) :=
  resources.foldl
    (fun acc r =>
      match acc with
      | none => none
      | some H =>
        match H.anchor.add_bucket with
        | none => none
        | some (b, anchor') =>
          some { H with anchor := anchor', resources := (b, r) :: H.resources })
    (some { anchor := Anchor.new capacity 0, hasher := hasher, resources := [] })

/-- BindReachable H means the binding H arises from a successful build
followed by successful (non-panicking) add_resource / remove_resource
calls. -/
inductive BindReachable {Key Res : Type} [DecidableEq Res] : AnchorHash Key Res → Prop where
  | build : ∀ (hasher : Key → Nat) (rs : List Res) (capacity : Nat) (H : AnchorHash Key Res),
      Builder.build hasher rs capacity = some H → BindReachable H
  | add : ∀ (H : AnchorHash Key Res) (r : Res) (e : Except Error Unit)
      (H' : AnchorHash Key Res),
      BindReachable H → H.add_resource r = some (e, H') → BindReachable H'
  | remove : ∀ (H : AnchorHash Key Res) (r : Res) (e : Except Error Unit)
      (H' : AnchorHash Key Res),
      BindReachable H → H.remove_resource r = some (e, H') → BindReachable H'

/-- BindInv: the binding invariant.  The mapped buckets are exactly
working buckets, with no duplicates, and their number is the working
count N. -/
structure BindInv {Key Res : Type} (H : AnchorHash Key Res) : Prop where
  reach : Reachable H.anchor
  keys_lt : ∀ p ∈ H.resources, p.1 < H.anchor.capacity
  keys_working : ∀ p ∈ H.resources, p.1 ∉ H.anchor.R
  keys_nodup : (H.resources.map Prod.fst).Nodup
  count : H.resources.length = H.anchor.N

/-- Destructuring a successful add_bucket. -/
theorem add_bucket_parts {S : Anchor} {b : Nat} {S' : Anchor}
    (h : S.add_bucket = some (b, S')) :
    S.R = b :: S'.R ∧ S'.capacity = S.capacity ∧ S'.N = S.N + 1 := by
  unfold Anchor.add_bucket at h
  cases hR : S.R with
  | nil => rw [hR] at h; exact absurd h (by simp)
  | cons b' R' =>
    rw [hR] at h
    have h2 := Option.some_injective _ h
    rw [Prod.mk.injEq] at h2
    obtain ⟨hb, hS⟩ := h2
    subst hb
    subst hS
    exact ⟨rfl, rfl, rfl⟩

/-- The bucket handed out by a successful add_bucket was the top of the
removal stack: it is not in the new stack, and it is in range. -/
theorem add_bucket_popped {S : Anchor} (hInv : Inv S) {b : Nat} {S' : Anchor}
    (h : S.add_bucket = some (b, S')) :
    b ∈ S.R ∧ b < S.capacity ∧ b ∉ S'.R := by
  obtain ⟨hR, _, _⟩ := add_bucket_parts h
  have hmem : b ∈ S.R := by rw [hR]; exact List.mem_cons_self b _
  have hlen : 0 < S.R.length := by rw [hR]; simp
  have hb0 : S.R.getD 0 0 = b := by rw [hR]; rfl
  refine ⟨hmem, by have := hInv.hRlt 0 hlen; rwa [hb0] at this, ?_⟩
  intro hmem'
  obtain ⟨j, hj, hjb⟩ := getD_of_mem hmem'
  have hj1 : S.R.getD (j + 1) 0 = b := by rw [hR]; simpa using hjb
  have hjlen : j + 1 < S.R.length := by rw [hR]; simpa using hj
  have h1 := hInv.hAR 0 hlen
  have h2 := hInv.hAR (j + 1) hjlen
  rw [hb0] at h1
  rw [hj1] at h2
  omega

/-- The binding invariant survives the shared add step (used both by the
builder and by add_resource). -/
theorem BindInv.add_step {Key Res : Type} {H : AnchorHash Key Res} (hI : BindInv H)
    {b : Nat} {anchor' : Anchor} (hadd : H.anchor.add_bucket = some (b, anchor'))
    (r : Res) :
    BindInv { H with anchor := anchor', resources := (b, r) :: H.resources } := by
  have hInv : Inv H.anchor := reachable_inv hI.reach
  obtain ⟨hR, hcap, hN⟩ := add_bucket_parts hadd
  obtain ⟨hbmem, hblt, hbnot⟩ := add_bucket_popped hInv hadd
  have hsub : ∀ x, x ∈ anchor'.R → x ∈ H.anchor.R := by
    intro x hx
    rw [hR]
    exact List.mem_cons_of_mem _ hx
  refine ⟨Reachable.add _ _ _ hI.reach hadd, ?_, ?_, ?_, ?_⟩
  · intro p hp
    rcases List.mem_cons.mp hp with h | h
    · rw [h]
      show b < anchor'.capacity
      rw [hcap]
      exact hblt
    · show p.1 < anchor'.capacity
      rw [hcap]
      exact hI.keys_lt p h
  · intro p hp
    rcases List.mem_cons.mp hp with h | h
    · rw [h]
      exact hbnot
    · intro hmem
      exact hI.keys_working p h (hsub _ hmem)
  · show (b :: H.resources.map Prod.fst).Nodup
    rw [List.nodup_cons]
    refine ⟨?_, hI.keys_nodup⟩
    intro hmem
    obtain ⟨p, hp, hpb⟩ := List.mem_map.mp hmem
    exact hI.keys_working p hp (hpb ▸ hbmem)
  · show H.resources.length + 1 = anchor'.N
    rw [hN, hI.count]

/-- Folding the build step over a none accumulator stays none. -/
theorem build_fold_none {Key Res : Type} (rs : List Res) :
    rs.foldl
      (fun (acc : Option (AnchorHash Key Res)) r =>
        match acc with
        | none => none
        | some H =>
          match H.anchor.add_bucket with
          | none => none
          | some (b, anchor') =>
            some { H with anchor := anchor', resources := (b, r) :: H.resources })
      none = none := by
  induction rs with
  | nil => rfl
  | cons r rs ih => exact ih

/-- The binding invariant holds along the builder's fold. -/
theorem build_fold_inv {Key Res : Type} (rs : List Res) :
    ∀ (H0 : AnchorHash Key Res), BindInv H0 →
    ∀ H, rs.foldl
      (fun acc r =>
        match acc with
        | none => none
        | some H =>
          match H.anchor.add_bucket with
          | none => none
          | some (b, anchor') =>
            some { H with anchor := anchor', resources := (b, r) :: H.resources })
      (some H0) = some H → BindInv H := by
  induction rs with
  | nil =>
    intro H0 hI H h
    exact (Option.some_injective _ h) ▸ hI
  | cons r rs ih =>
    intro H0 hI H h
    rw [List.foldl_cons] at h
    cases hadd : H0.anchor.add_bucket with
    | none =>
      simp only [hadd] at h
      rw [build_fold_none] at h
      exact absurd h (by simp)
    | some p =>
      obtain ⟨b, anchor'⟩ := p
      simp only [hadd] at h
      exact ih _ (hI.add_step hadd r) H h

/-- A successful build satisfies the binding invariant. -/
theorem build_inv {Key Res : Type} (hasher : Key → Nat) (rs : List Res) (capacity : Nat)
    {H : AnchorHash Key Res} (h : Builder.build hasher rs capacity = some H) :
    BindInv H := by
  have hI0 : BindInv
      ({ anchor := Anchor.new capacity 0, hasher := hasher, resources := [] } :
        AnchorHash Key Res) :=
    ⟨Reachable.new capacity 0 (Nat.zero_le _), by simp, by simp, by simp, rfl⟩
  exact build_fold_inv rs _ hI0 H h

/-- Length of removing the unique entry with a given key. -/
theorem filter_key_length {Res : Type} :
    ∀ (l : List (Nat × Res)) (b : Nat), (l.map Prod.fst).Nodup → b ∈ l.map Prod.fst →
    (l.filter fun q => !(q.1 == b)).length = l.length - 1 := by
  intro l
  induction l with
  | nil => intro b _ hmem; simp at hmem
  | cons a t ih =>
    intro b hnd hmem
    rw [List.map_cons, List.nodup_cons] at hnd
    by_cases hab : a.1 = b
    · have hfilter : t.filter (fun q => !(q.1 == b)) = t := by
        rw [List.filter_eq_self]
        intro q hq
        have : q.1 ≠ b := by
          intro heq
          have hmem2 : q.1 ∈ t.map Prod.fst := List.mem_map_of_mem Prod.fst hq
          rw [heq, ← hab] at hmem2
          exact hnd.1 hmem2
        simp [this]
      rw [List.filter_cons]
      rw [if_neg (by simp [hab])]
      rw [hfilter]
      simp
    · have hbt : b ∈ t.map Prod.fst := by
        rcases List.mem_cons.mp hmem with h | h
        · exact absurd h.symm hab
        · exact h
      have htlen : 1 ≤ t.length := by
        cases t with
        | nil => simp at hbt
        | cons _ _ => simp
      rw [List.filter_cons, if_pos (by simp [hab])]
      rw [List.length_cons, ih b hnd.2 hbt]
      simp
      omega

/-- The binding invariant is preserved by every successful binding
operation, hence holds for every reachable binding. -/
theorem bind_reachable_inv {Key Res : Type} [DecidableEq Res] {H : AnchorHash Key Res}
    (h : BindReachable H) : BindInv H := by
  induction h with
  | build hasher rs capacity H hbuild => exact build_inv hasher rs capacity hbuild
  | add H r e H' hreach hop ih =>
    unfold AnchorHash.add_resource at hop
    cases hadd : H.anchor.add_bucket with
    | none =>
      simp only [hadd] at hop
      have h2 := Option.some_injective _ hop
      rw [Prod.mk.injEq] at h2
      exact h2.2 ▸ ih
    | some p =>
      obtain ⟨b, anchor'⟩ := p
      simp only [hadd] at hop
      by_cases hany : H.resources.any fun p => p.1 == b
      · rw [if_pos hany] at hop
        exact absurd hop (by simp)
      · rw [if_neg hany] at hop
        have h2 := Option.some_injective _ hop
        rw [Prod.mk.injEq] at h2
        exact h2.2 ▸ ih.add_step hadd r
  | remove H r e H' hreach hop ih =>
    unfold AnchorHash.remove_resource at hop
    cases hfind : H.resources.find? fun p => decide (p.2 = r) with
    | none =>
      simp only [hfind] at hop
      have h2 := Option.some_injective _ hop
      rw [Prod.mk.injEq] at h2
      exact h2.2 ▸ ih
    | some p =>
      simp only [hfind] at hop
      cases hrem : H.anchor.remove_bucket p.1 with
      | none => simp only [hrem] at hop; exact absurd hop (by simp)
      | some anchor' =>
        simp only [hrem] at hop
        have h2 := Option.some_injective _ hop
        rw [Prod.mk.injEq] at h2
        obtain ⟨h1, h4, h3, hSS⟩ := remove_bucket_eq_some hrem
        have hpmem : p ∈ H.resources := List.mem_of_find?_eq_some hfind
        have hRa : anchor'.R = p.1 :: H.anchor.R := by rw [hSS]; rfl
        have hCa : anchor'.capacity = H.anchor.capacity := by rw [hSS]; rfl
        have hNa : anchor'.N = H.anchor.N - 1 := by rw [hSS]; rfl
        rw [← h2.2]
        refine ⟨Reachable.remove _ _ _ ih.reach hrem, ?_, ?_, ?_, ?_⟩
        · intro q hq
          have := List.mem_filter.mp hq
          show q.1 < anchor'.capacity
          rw [hCa]
          exact ih.keys_lt q this.1
        · intro q hq
          have hq2 := List.mem_filter.mp hq
          have hqb : q.1 ≠ p.1 := by
            have := hq2.2
            simpa using this
          show q.1 ∉ anchor'.R
          rw [hRa]
          intro hmem
          rcases List.mem_cons.mp hmem with hc | hc
          · exact hqb hc
          · exact ih.keys_working q hq2.1 hc
        · exact ih.keys_nodup.sublist ((List.filter_sublist _).map Prod.fst)
        · show (H.resources.filter fun q => !(q.1 == p.1)).length = anchor'.N
          rw [hNa, ← ih.count]
          exact filter_key_length H.resources p.1 ih.keys_nodup
            (List.mem_map_of_mem Prod.fst hpmem)

/-!
Removal directly after a successful add restores the previous state:
the mirror image of removeState_add_bucket, needed for the add-then-
remove round trip of the binding.
-/

theorem range_set_self (cap w : Nat) (hw : w < cap) :
    (List.range cap).set w w = List.range cap := by
  nth_rewrite 2 [← getD_range cap w hw]
  exact set_getD_eq (List.range cap) w (by simpa using hw)

theorem new_A_set_back (cap w : Nat) (hw : w < cap) :
    ((List.range cap).map fun x => if x < w + 1 then 0 else x).set w w =
    (List.range cap).map fun x => if x < w then 0 else x := by
  apply List.ext
  intro i
  by_cases hi : i < cap
  · have hmap : ∀ (v : Nat), ((List.range cap).map fun x => if x < v then 0 else x).get? i =
        some (if i < v then 0 else i) := by
      intro v
      rw [List.get?_map, List.get?_range hi]
      rfl
    by_cases hiw : i = w
    · subst hiw
      rw [get?_set_self ((List.range cap).map fun x => if x < i + 1 then 0 else x) i i
        (by simpa using hi), hmap i, if_neg (by omega)]
    · rw [get?_set_ne _ _ _ _ (fun h => hiw h.symm), hmap (w + 1), hmap w]
      congr 1
      by_cases h2 : i < w
      · rw [if_pos (by omega), if_pos h2]
      · rw [if_neg (by omega), if_neg h2]
  · rw [List.get?_eq_none.mpr, List.get?_eq_none.mpr]
    · simpa using hi
    · simp only [List.length_set, List.length_map, List.length_range]
      omega

theorem anchor_ext {S T : Anchor} (h1 : S.capacity = T.capacity) (h2 : S.A = T.A)
    (h3 : S.R = T.R) (h4 : S.N = T.N) (h5 : S.W = T.W) (h6 : S.K = T.K)
    (h7 : S.L = T.L) : S = T := by
  cases S
  cases T
  simp_all

/-- Removing the bucket that was just activated at init returns to the
previous init state. -/
theorem new_remove_bucket (cap w : Nat) (hw : w < cap) :
    (Anchor.new cap (w + 1)).remove_bucket w = some (Anchor.new cap w) := by
  have hA0 : (Anchor.new cap (w + 1)).A.getD w 0 = 0 := by
    rw [new_A_getD cap (w + 1) w hw, if_pos (by omega)]
  have hlen : w < (Anchor.new cap (w + 1)).A.length := by
    show w < ((List.range cap).map _).length
    simpa using hw
  rw [remove_bucket_eq_some_of hlen hA0 (show 1 ≤ w + 1 by omega)]
  refine congrArg some (anchor_ext rfl ?_ ?_ rfl ?_ ?_ ?_)
  · exact new_A_set_back cap w hw
  · show w :: List.range' (w + 1) (cap - (w + 1)) = List.range' w (cap - w)
    rw [show cap - w = (cap - (w + 1)) + 1 by omega]
    rfl
  · show (List.range cap).set ((List.range cap).getD w 0) ((List.range cap).getD w 0) =
      List.range cap
    rw [getD_range cap w hw]
    exact range_set_self cap w hw
  · show (List.range cap).set w
      (((List.range cap).set ((List.range cap).getD w 0) ((List.range cap).getD w 0)).getD w 0) =
      List.range cap
    rw [getD_range cap w hw, range_set_self cap w hw, getD_range cap w hw]
    exact range_set_self cap w hw
  · show (List.range cap).set
      (((List.range cap).set ((List.range cap).getD w 0) ((List.range cap).getD w 0)).getD w 0)
      ((List.range cap).getD w 0) = List.range cap
    rw [getD_range cap w hw, range_set_self cap w hw, getD_range cap w hw]
    exact range_set_self cap w hw

/-- Removing the bucket handed out by a successful add restores the
state before the add. -/
theorem add_then_remove {S : Anchor} (hprr : PRR S) {b : Nat} {S' : Anchor}
    (hadd : S.add_bucket = some (b, S')) : S'.remove_bucket b = some S := by
  cases hprr with
  | new cap w hw =>
    by_cases hwc : w < cap
    · rw [new_add_bucket cap w hwc] at hadd
      have h2 := Option.some_injective _ hadd
      rw [Prod.mk.injEq] at h2
      rw [← h2.1, ← h2.2]
      exact new_remove_bucket cap w hwc
    · have hnone : (Anchor.new cap w).add_bucket = none := by
        unfold Anchor.add_bucket
        have : (Anchor.new cap w).R = [] := by
          show List.range' w (cap - w) = []
          rw [show cap - w = 0 by omega]
          rfl
        rw [this]
      rw [hnone] at hadd
      exact Option.noConfusion hadd
  | remove T y Scur hT hrem =>
    obtain ⟨h1, h2, h3, h4⟩ := remove_bucket_eq_some hrem
    have hInvT : Inv T := prr_inv hT
    have hback := removeState_add_bucket hInvT (by rw [← hInvT.lenA]; exact h1) h2 h3
    rw [← h4] at hback
    rw [hback] at hadd
    have h5 := Option.some_injective _ hadd
    rw [Prod.mk.injEq] at h5
    rw [← h5.1, ← h5.2]
    exact hrem

/-!
Claim theorems.
-/

/-- C1: for every Anchor state reachable from new(capacity, w) by any
sequence of add_bucket and remove_bucket operations in which at least one
bucket is working (N ≥ 1), and for every 32-bit key k, get_bucket(k)
returns a bucket id b that is working, i.e. A[b] = 0. -/
theorem C1_get_bucket_returns_working {S : Anchor} (h : Reachable S) (hN : 1 ≤ S.N)
    {k : Nat} (hk : k < 2 ^ 32) :
    ∃ bk, S.get_bucket k = .ok bk ∧ bk.deref < S.capacity ∧ S.A.getD bk.deref 0 = 0 := by
  have hInv := reachable_inv h
  have hcap : 0 < S.capacity := by have := hInv.hNR; omega
  exact get_bucket_ok hInv hcap hk

theorem C1_witness :
    ∃ bk, (Anchor.new 1 1).get_bucket 0 = .ok bk ∧ bk.deref < (Anchor.new 1 1).capacity ∧
      (Anchor.new 1 1).A.getD bk.deref 0 = 0 :=
  C1_get_bucket_returns_working (Reachable.new 1 1 (by decide)) (by decide) (by norm_num)

/-- C2: for every reachable Anchor state with N ≥ 1 and every key, both
loops of get_bucket terminate: the fuelled embedding returns an ok value
(neither fuel exhaustion nor an out-of-bounds panic occurs), so
get_bucket is a total function under this precondition. -/
theorem C2_get_bucket_terminates {S : Anchor} (h : Reachable S) (hN : 1 ≤ S.N)
    {k : Nat} (hk : k < 2 ^ 32) : ∃ bk, S.get_bucket k = Except.ok bk := by
  have hInv := reachable_inv h
  have hcap : 0 < S.capacity := by have := hInv.hNR; omega
  obtain ⟨bk, hok, _, _⟩ := get_bucket_ok hInv hcap hk
  exact ⟨bk, hok⟩

theorem C2_witness : ∃ bk, (Anchor.new 2 1).get_bucket 1 = Except.ok bk :=
  C2_get_bucket_terminates (Reachable.new 2 1 (by decide)) (by decide) (by norm_num)

/-- C3: minimal disruption on removal: in every reachable state with
N ≥ 2, for every working bucket b and every key whose lookup resolves to
a bucket c different from b, the lookup still resolves to c after
remove_bucket(b); hence only keys previously mapping to b change their
mapping. -/
theorem C3_remove_preserves_other_keys {S : Anchor} (h : Reachable S) (hN : 2 ≤ S.N)
    {b : Nat} (hb : b < S.capacity) (hA0 : S.A.getD b 0 = 0)
    {k : Nat} (hk : k < 2 ^ 32) {c : Bucket} (hc : S.get_bucket k = .ok c)
    (hne : c.deref ≠ b) :
    ∃ S', S.remove_bucket b = some S' ∧ S'.get_bucket k = .ok c := by
  have hInv := reachable_inv h
  have hsome : S.remove_bucket b = some (S.removeState b) :=
    remove_bucket_eq_some_of (by rw [hInv.lenA]; exact hb) hA0 (by omega)
  refine ⟨S.removeState b, hsome, ?_⟩
  have hAb : S.A.get? b = some 0 := by
    rw [get?_eq_getD S.A b (by rw [hInv.lenA]; exact hb)]
    exact congrArg some hA0
  exact get_bucket_agree (show (S.removeState b).capacity = S.capacity from rfl)
    (show (S.removeState b).A.length = S.A.length from List.length_set _ _ _)
    (fun x hx => get?_set_ne S.A b x _ (fun hcontra => hx hcontra.symm))
    (fun x hx => get?_set_ne S.K b x _ (fun hcontra => hx hcontra.symm))
    hAb k c hc hne

theorem C3_witness :
    ∃ S', (Anchor.new 2 2).remove_bucket 1 = some S' ∧
      S'.get_bucket 0 = .ok (Bucket.Original 0) :=
  C3_remove_preserves_other_keys (Reachable.new 2 2 (by decide)) (by decide) (by decide)
    (by decide) (by norm_num) (by rfl) (by decide)

/-- C4: from every reachable binding state in which no stored resource
equals r, the sequence add_resource(r) then remove_resource(r) returns to
a state that resolves every key to the same resource as before. -/
theorem C4_add_remove_restores_mapping {Key Res : Type} [DecidableEq Res]
    {H : AnchorHash Key Res} (h : BindReachable H) {r : Res}
    (habs : ∀ p ∈ H.resources, p.2 ≠ r) :
    ∃ e₁ H₁ e₂ H₂, H.add_resource r = some (e₁, H₁) ∧
      H₁.remove_resource r = some (e₂, H₂) ∧
      ∀ key, H₂.get_resource key = H.get_resource key := by
  have hI := bind_reachable_inv h
  have hfind : ∀ (l : List (Nat × Res)), (∀ p ∈ l, p.2 ≠ r) →
      (l.find? fun p => decide (p.2 = r)) = none := by
    intro l hl
    rw [List.find?_eq_none]
    intro p hp
    simpa using hl p hp
  cases haddE : H.anchor.add_bucket with
  | none =>
    refine ⟨.error .CapacityLimitReached, H, .error .ResourceNotFound, H, ?_, ?_,
      fun key => rfl⟩
    · unfold AnchorHash.add_resource
      rw [haddE]
    · unfold AnchorHash.remove_resource
      rw [hfind _ habs]
  | some p =>
    obtain ⟨b', anchor₁⟩ := p
    have hparts := add_bucket_parts haddE
    have hb'R : b' ∈ H.anchor.R := by
      rw [hparts.1]
      exact List.mem_cons_self _ _
    have hany : (H.resources.any fun p => p.1 == b') = false := by
      cases hval : (H.resources.any fun p => p.1 == b') with
      | false => rfl
      | true =>
        obtain ⟨q, hq, hqb⟩ := List.any_eq_true.mp hval
        have hq1 : q.1 = b' := by simpa using hqb
        exact absurd (hq1 ▸ hb'R) (hI.keys_working q hq)
    have hstep1 : H.add_resource r = some (.ok (),
        { H with anchor := anchor₁, resources := (b', r) :: H.resources }) := by
      unfold AnchorHash.add_resource
      simp only [haddE]
      rw [if_neg (by simp [hany])]
    have hremA : anchor₁.remove_bucket b' = some H.anchor :=
      add_then_remove (reachable_prr hI.reach) haddE
    have hfilter : ((b', r) :: H.resources).filter (fun q => !(q.1 == b')) =
        H.resources := by
      rw [List.filter_cons, if_neg (by simp)]
      rw [List.filter_eq_self]
      intro q hq
      have hq1 : q.1 ≠ b' := by
        intro heq
        exact hI.keys_working q hq (heq ▸ hb'R)
      simp [hq1]
    have hfindhead : (((b', r) :: H.resources).find? fun p => decide (p.2 = r)) =
        some (b', r) := by
      apply List.find?_cons_of_pos
      simp
    refine ⟨.ok (), _, .ok (), H, hstep1, ?_, fun key => rfl⟩
    unfold AnchorHash.remove_resource
    simp only [hfindhead, hremA, hfilter]

theorem C4_witness :
    ∃ e₁ H₁ e₂ H₂,
      AnchorHash.add_resource
        (⟨⟨2, [0, 1], [1], 1, [0, 1], [0, 1], [0, 1]⟩, fun n => n, [(0, 5)]⟩ :
          AnchorHash Nat Nat) 7 = some (e₁, H₁) ∧
      H₁.remove_resource 7 = some (e₂, H₂) ∧
      ∀ key, H₂.get_resource key =
        AnchorHash.get_resource
          (⟨⟨2, [0, 1], [1], 1, [0, 1], [0, 1], [0, 1]⟩, fun n => n, [(0, 5)]⟩ :
            AnchorHash Nat Nat) key :=
  C4_add_remove_restores_mapping
    (BindReachable.build (fun n => n) [5] 2
      ⟨⟨2, [0, 1], [1], 1, [0, 1], [0, 1], [0, 1]⟩, fun n => n, [(0, 5)]⟩ rfl)
    (by decide)

/-- C5 counterexample: the claim that every removed bucket b has
A[b] ∈ [1, capacity-1] fails already at new(2, 0): bucket 0 is removed
(it is on the stack R) yet its sentinel anchor value is A[0] = 0. -/
theorem C5_counterexample :
    ¬ (∀ b ∈ (Anchor.new 2 0).R, 1 ≤ (Anchor.new 2 0).A.getD b 0) := by
  intro hcon
  have h0 : (0 : Nat) ∈ (Anchor.new 2 0).R := by decide
  have := hcon 0 h0
  have hval : (Anchor.new 2 0).A.getD 0 0 = 0 := by decide
  omega

/-- C5 (amended): after new(capacity, w) and every subsequent operation,
every removed bucket b has A[b] < capacity, and A[b] ≥ 1 whenever at
least one bucket is working (N ≥ 1); when N = 0 the most recently removed
bucket (in particular bucket 0's sentinel when w = 0) has A[b] = 0. -/
theorem C5_removed_anchor_value_bounds {S : Anchor} (h : Reachable S) :
    ∀ b ∈ S.R, S.A.getD b 0 < S.capacity ∧ (1 ≤ S.N → 1 ≤ S.A.getD b 0) := by
  intro b hb
  have hInv := reachable_inv h
  obtain ⟨i, hi, hib⟩ := getD_of_mem hb
  have h1 := hInv.hAR i hi
  have h2 := hInv.hNR
  rw [hib] at h1
  constructor
  · omega
  · intro hN
    omega

theorem C5_witness :
    (Anchor.new 2 1).A.getD 1 0 < (Anchor.new 2 1).capacity ∧
      (1 ≤ (Anchor.new 2 1).N → 1 ≤ (Anchor.new 2 1).A.getD 1 0) :=
  C5_removed_anchor_value_bounds (Reachable.new 2 1 (by decide)) 1 (by decide)

/-- C6 counterexample: a binding built with capacity 0 does not return
None from get_resource; the lookup panics with an out-of-bounds index
(modelled as GetErr.oob), because get_bucket reads A[0] of an empty
anchor array.  Shown with the identity hasher and key 0. -/
theorem C6_counterexample :
    AnchorHash.get_resource
      (⟨Anchor.new 0 0, fun n => n, []⟩ : AnchorHash Nat Nat) 0 ≠ Except.ok none := by
  intro hcontra
  exact Except.noConfusion
    (show (Except.error GetErr.oob : Except GetErr (Option Nat)) = Except.ok none from hcontra)

/-- C6 (amended): capacity 0 is accepted by the builder, add_resource
always fails with CapacityLimitReached leaving the state unchanged, but
get_resource panics with an out-of-bounds index for every key instead of
returning None. -/
theorem C6_capacity_zero {Key Res : Type} (hasher : Key → Nat) :
    ∃ H : AnchorHash Key Res, Builder.build hasher [] 0 = some H ∧
      (∀ key, H.get_resource key = .error .oob) ∧
      (∀ r, H.add_resource r = some (.error .CapacityLimitReached, H)) := by
  refine ⟨⟨Anchor.new 0 0, hasher, []⟩, rfl, ?_, fun r => rfl⟩
  intro key
  have hrm : range_map (hasher key % 2 ^ 64 % 2 ^ 32) (Anchor.new 0 0).capacity = 0 := by
    show (hasher key % 2 ^ 64 % 2 ^ 32) * 0 / 2 ^ 32 = 0
    simp
  have hbucket : (Anchor.new 0 0).get_bucket (hasher key % 2 ^ 64 % 2 ^ 32) =
      .error .oob := by
    unfold Anchor.get_bucket
    rw [hrm]
    rfl
  unfold AnchorHash.get_resource
  simp only [hbucket]

theorem C6_witness :
    ∃ H : AnchorHash Nat Nat, Builder.build (fun n => n) [] 0 = some H ∧
      (∀ key, H.get_resource key = .error .oob) ∧
      (∀ r, H.add_resource r = some (.error .CapacityLimitReached, H)) :=
  C6_capacity_zero (fun n => n)

/-- C7: get_bucket returns the Remapped variant exactly when the inner
loop iterated at least once over the whole search (count ≥ 1 in the
counting instrumentation, which runs the identical loops); otherwise it
returns Original with the same id; and a positive count implies the
key's initial slot range_map(k, capacity) was a removed bucket. -/
theorem C7_remapped_iff_inner_loop (S : Anchor) (k : Nat) :
    S.get_bucket k = (S.get_bucket_count k).map
      (fun p => if 0 < p.2 then Bucket.Remapped p.1 else Bucket.Original p.1) ∧
    (∀ b n, S.get_bucket_count k = .ok (b, n) → 0 < n →
      ∃ a0, S.A.get? (range_map k S.capacity) = some a0 ∧ 0 < a0) := by
  constructor
  · unfold Anchor.get_bucket Anchor.get_bucket_count
    rw [bucketLoop_eq_count]
    cases heq : bucketCount S.A S.K k (S.A.length + 1) (range_map k S.capacity) with
    | error e => simp [Except.map]
    | ok p =>
      obtain ⟨b, n⟩ := p
      simp only [Except.map]
      by_cases hn : 0 < n
      · rw [if_pos hn]
        simp [hn]
      · rw [if_neg hn]
        simp [hn]
  · intro b n hcount hn
    unfold Anchor.get_bucket_count at hcount
    rw [bucketCount] at hcount
    cases heq : S.A.get? (range_map k S.capacity) with
    | none => simp only [heq] at hcount; exact absurd hcount (by simp)
    | some a0 =>
      simp only [heq] at hcount
      by_cases hpos : 0 < a0
      · exact ⟨a0, rfl, hpos⟩
      · rw [if_neg hpos] at hcount
        rw [Except.ok.injEq, Prod.mk.injEq] at hcount
        omega

theorem C7_witness :
    (Anchor.mk 2 [1, 0] [0] 1 [1, 1] [1, 1] [0, 0]).get_bucket 0 =
      ((Anchor.mk 2 [1, 0] [0] 1 [1, 1] [1, 1] [0, 0]).get_bucket_count 0).map
        (fun p => if 0 < p.2 then Bucket.Remapped p.1 else Bucket.Original p.1) ∧
    ∃ a0, (Anchor.mk 2 [1, 0] [0] 1 [1, 1] [1, 1] [0, 0]).A.get?
        (range_map 0 (Anchor.mk 2 [1, 0] [0] 1 [1, 1] [1, 1] [0, 0]).capacity) =
        some a0 ∧ 0 < a0 :=
  ⟨(C7_remapped_iff_inner_loop (Anchor.mk 2 [1, 0] [0] 1 [1, 1] [1, 1] [0, 0]) 0).1,
    (C7_remapped_iff_inner_loop (Anchor.mk 2 [1, 0] [0] 1 [1, 1] [1, 1] [0, 0]) 0).2
      1 1 (by rfl) (by decide)⟩

/-- C8: in every reachable binding state, add_resource returns the
CapacityLimitReached error with the state unchanged exactly when the
anchor's working count N equals the capacity, equivalently when the
removed-bucket stack R is empty. -/
theorem C8_capacity_error_iff_full {Key Res : Type} [DecidableEq Res]
    {H : AnchorHash Key Res} (h : BindReachable H) (r : Res) :
    (H.add_resource r = some (.error .CapacityLimitReached, H) ↔
      H.anchor.N = H.anchor.capacity) ∧
    (H.anchor.N = H.anchor.capacity ↔ H.anchor.R = []) ∧
    (∀ e H', H.add_resource r = some (e, H') →
      e = Except.error Error.CapacityLimitReached →
      H' = H ∧ H.anchor.N = H.anchor.capacity) := by
  have hI := bind_reachable_inv h
  have hInv := reachable_inv hI.reach
  have hNR := hInv.hNR
  have hRiff : H.anchor.N = H.anchor.capacity ↔ H.anchor.R = [] := by
    constructor
    · intro hEq
      have hlen : H.anchor.R.length = 0 := by omega
      exact List.length_eq_zero.mp hlen
    · intro hEq
      rw [hEq] at hNR
      simp at hNR
      omega
  have herr : ∀ e H', H.add_resource r = some (e, H') →
      e = Except.error Error.CapacityLimitReached →
      H' = H ∧ H.anchor.N = H.anchor.capacity := by
    intro e H' hadd he
    cases hR : H.anchor.R with
    | nil =>
      have hnone : H.anchor.add_bucket = none := by
        unfold Anchor.add_bucket
        rw [hR]
      unfold AnchorHash.add_resource at hadd
      rw [hnone] at hadd
      have h2 := Option.some_injective _ hadd
      rw [Prod.mk.injEq] at h2
      exact ⟨h2.2.symm, hRiff.mpr hR⟩
    | cons b R' =>
      exfalso
      unfold AnchorHash.add_resource at hadd
      simp only [add_bucket_cons hR] at hadd
      by_cases hany : (H.resources.any fun p => p.1 == b) = true
      · rw [if_pos hany] at hadd
        exact Option.noConfusion hadd
      · rw [if_neg hany] at hadd
        have h2 := Option.some_injective _ hadd
        rw [Prod.mk.injEq] at h2
        rw [he] at h2
        exact Except.noConfusion h2.1
  refine ⟨?_, hRiff, herr⟩
  constructor
  · intro hadd
    exact (herr _ _ hadd rfl).2
  · intro hEq
    have hR := hRiff.mp hEq
    have hnone : H.anchor.add_bucket = none := by
      unfold Anchor.add_bucket
      rw [hR]
    unfold AnchorHash.add_resource
    rw [hnone]

theorem C8_witness :
    (AnchorHash.add_resource
        (⟨⟨1, [0], [], 1, [0], [0], [0]⟩, fun n => n, [(0, 5)]⟩ : AnchorHash Nat Nat) 9 =
        some (.error .CapacityLimitReached,
          (⟨⟨1, [0], [], 1, [0], [0], [0]⟩, fun n => n, [(0, 5)]⟩ : AnchorHash Nat Nat)) ↔
      (1 : Nat) = 1) ∧
    ((1 : Nat) = 1 ↔ ([] : List Nat) = []) ∧
    (∀ e H', AnchorHash.add_resource
        (⟨⟨1, [0], [], 1, [0], [0], [0]⟩, fun n => n, [(0, 5)]⟩ : AnchorHash Nat Nat) 9 =
        some (e, H') →
      e = Except.error Error.CapacityLimitReached →
      H' = (⟨⟨1, [0], [], 1, [0], [0], [0]⟩, fun n => n, [(0, 5)]⟩ : AnchorHash Nat Nat) ∧
        (1 : Nat) = 1) :=
  C8_capacity_error_iff_full
    (BindReachable.build (fun n => n) [5] 1
      ⟨⟨1, [0], [], 1, [0], [0], [0]⟩, fun n => n, [(0, 5)]⟩ rfl) 9

/-- C9: when no stored resource equals the argument, remove_resource
returns the ResourceNotFound error and the returned state is the input
state unchanged (anchor arrays, count and mapping included). -/
theorem C9_remove_missing_is_error {Key Res : Type} [DecidableEq Res]
    {H : AnchorHash Key Res} (h : BindReachable H) {r : Res}
    (habs : ∀ p ∈ H.resources, p.2 ≠ r) :
    H.remove_resource r = some (.error .ResourceNotFound, H) := by
  unfold AnchorHash.remove_resource
  rw [List.find?_eq_none.mpr (fun p hp => by simpa using habs p hp)]

theorem C9_witness :
    AnchorHash.remove_resource
      (⟨Anchor.new 2 0, fun n => n, []⟩ : AnchorHash Nat Nat) 3 =
      some (.error .ResourceNotFound, ⟨Anchor.new 2 0, fun n => n, []⟩) :=
  C9_remove_missing_is_error
    (BindReachable.build (fun n => n) [] 2 ⟨Anchor.new 2 0, fun n => n, []⟩ rfl)
    (by decide)

/-- C10: every reachable binding whose anchor has capacity ≥ 1 and zero
working buckets (freshly built empty, or after removing every resource)
answers every lookup with ok none: the fuelled loops terminate, no index
is out of bounds, and the empty mapping yields None. -/
theorem C10_empty_lookup_returns_none {Key Res : Type} [DecidableEq Res]
    {H : AnchorHash Key Res} (h : BindReachable H) (hN : H.anchor.N = 0)
    (hcap : 1 ≤ H.anchor.capacity) (key : Key) :
    H.get_resource key = .ok none := by
  have hI := bind_reachable_inv h
  have hInv := reachable_inv hI.reach
  have hres : H.resources = [] := List.length_eq_zero.mp (by rw [hI.count, hN])
  have hk : (H.hasher key % 2 ^ 64) % 2 ^ 32 < 2 ^ 32 := Nat.mod_lt _ (by norm_num)
  obtain ⟨bk, hok, _, _⟩ := get_bucket_ok hInv (by omega) hk
  unfold AnchorHash.get_resource
  simp only [hok, hres]
  rfl

theorem C10_witness :
    AnchorHash.get_resource
      (⟨Anchor.new 1 0, fun n => n, []⟩ : AnchorHash Nat Nat) 0 = .ok none :=
  C10_empty_lookup_returns_none
    (BindReachable.build (fun n => n) [] 1 ⟨Anchor.new 1 0, fun n => n, []⟩ rfl)
    (by decide) (by decide) 0

end Anchorhash
